import Mathlib

/-!
techtools: the daily checklist widget and the typing widget

A shallow embedding of `RegularChecks.js` (task list, completed set, the three
effects that load and save the browser-local storage, the five handlers) and of
`handleKeyDown` in `TypingThroughInput.js`.

Conventions of the embedding.

* A JavaScript string is its sequence of UTF-16 code units (`JSString`).
* `Date.now()` and `getTodayDateString()` read the clock; the reading is an
  argument of the function that uses it.
* `window.confirm` is answered by the user; the answer is an argument.
* A React state setter replaces the component state; a handler is a function
  from the state before the event to the state after it.
* A task id made by the widget is `Date.now()`, an integer number of
  milliseconds; the typed state (`State`) keeps ids as `Int`. The storage can hold
  any Number as an id; the save effects read the state with its ids as Numbers
  (`NumericState`, `State.toNumeric`).
* A Number is kept by its exact value (`JSNumber`): an integer, an odd numerator over
  a power of two, or an infinity. `JSON.parse` is modelled on code units after
  ECMA-404 and rounds the decimal it reads to the nearest binary64 value, ties to
  even; `Number::toString` writes the fewest digits that read back as the Number;
  `JSON.stringify` is modelled on the two shapes the widget writes. The parser
  runs on fuel; `parseValue_fuel_enough` shows that the fuel `JSON.parse` gives
  is never the reason of a failure.
-/

namespace Techtools

/-! ## JavaScript strings -/

/-- A JavaScript string: the list of its UTF-16 code units. -/
abbrev JSString := List Nat

/-- The code units of a string literal (UTF-16 encoding of each character). -/
def utf16 (s : String) : JSString :=
  s.toList.flatMap fun c =>
    if c.toNat < 65536 then [c.toNat]
    else [55296 + (c.toNat - 65536) / 1024, 56320 + (c.toNat - 65536) % 1024]

/-- The code units removed by `String.prototype.trim`: ECMAScript WhiteSpace
(TAB, VT, FF, SP, NBSP, ZWNBSP and the Unicode space separators) and
LineTerminator (LF, CR, LS, PS). -/
def isTrimUnit (c : Nat) : Bool :=
  c == 9 || c == 10 || c == 11 || c == 12 || c == 13 || c == 32 || c == 160 ||
  c == 5760 || (8192 ≤ c && c ≤ 8202) || c == 8232 || c == 8233 || c == 8239 ||
  c == 8287 || c == 12288 || c == 65279

/-- The builtin `String.prototype.trim`. -/
def trim (s : JSString) : JSString :=
  ((s.dropWhile isTrimUnit).reverse.dropWhile isTrimUnit).reverse

/-! ## The checklist state -/

/-- A task record `{ id, text }`. -/
structure Task where
  id : Int
  text : JSString
  deriving DecidableEq, Repr

/-- A JavaScript `Set` of task ids: its members in insertion order, each once. -/
structure IdSet where
  elems : List Int
  nodup : elems.Nodup

namespace IdSet

/-- The value of `new Set()`. -/
def empty : IdSet := ⟨[], List.nodup_nil⟩

/-- The method `Set.prototype.has`. -/
def has (s : IdSet) (k : Int) : Bool := s.elems.contains k

/-- The method `Set.prototype.delete`. -/
def delete (s : IdSet) (k : Int) : IdSet :=
  ⟨s.elems.filter (fun x => x != k), s.nodup.filter _⟩

/-- The method `Set.prototype.add`: a member already present keeps its place,
a new one goes last. -/
def add (s : IdSet) (k : Int) : IdSet :=
  if h : k ∈ s.elems then s
  else ⟨s.elems ++ [k], by
    have hn := s.nodup
    rw [List.nodup_append]
    refine ⟨hn, List.nodup_singleton k, ?_⟩
    intro a ha hb
    rw [List.mem_singleton] at hb
    exact h (hb ▸ ha)⟩

/-- The property `Set.prototype.size`. -/
def size (s : IdSet) : Nat := s.elems.length

end IdSet

/-- The component state of `RegularChecks` (the five `useState` cells), for
tasks made by the widget. -/
structure State where
  tasks : List Task
  completedTasks : IdSet
  inputValue : JSString
  editingTask : Option Task
  isLoaded : Bool

/-- Handler `handleAddTask`; `now` is the value of `Date.now()`. -/
def handleAddTask (now : Int) (st : State) : State :=
  if trim st.inputValue = [] then st
  else
    let newTask : Task := { id := now, text := trim st.inputValue }
    { st with tasks := st.tasks ++ [newTask], inputValue := [] }

/-- Handler `handleDeleteAll`; `confirmed` is the answer of `window.confirm`. -/
def handleDeleteAll (confirmed : Bool) (st : State) : State :=
  if confirmed then { st with tasks := [], completedTasks := IdSet.empty }
  else st

/-- Handler `handleDeleteTask`. -/
def handleDeleteTask (taskId : Int) (st : State) : State :=
  { st with
    tasks := st.tasks.filter (fun task => task.id != taskId)
    completedTasks := st.completedTasks.delete taskId }

/-- Handler `handleTaskToggle`. -/
def handleTaskToggle (taskId : Int) (st : State) : State :=
  { st with
    completedTasks :=
      if st.completedTasks.has taskId then st.completedTasks.delete taskId
      else st.completedTasks.add taskId }

/-- Handler `handleSaveEdit`. -/
def handleSaveEdit (st : State) : State :=
  match st.editingTask with
  | none => st
  | some editingTask =>
    if trim editingTask.text = [] then st
    else
      { st with
        tasks := st.tasks.map (fun task =>
          if task.id = editingTask.id then { task with text := trim editingTask.text }
          else task)
        editingTask := none }

/-- The counter shown as `Completed: {completedTasks.size} / {tasks.length}`. -/
def completedCounter (st : State) : Nat × Nat :=
  (st.completedTasks.size, st.tasks.length)

/-! ## The typing widget -/

/-- A call of one of the three actions of `useTyping`. -/
inductive TypingAction where
  | resetTyping
  | deleteTyping (control : Bool)
  | insertTyping (letter : JSString)
  deriving DecidableEq, Repr

/-- Handler `handleKeyDown (e, letter, control)`: the typing actions it calls, in
order, and whether it calls `e.preventDefault()`; `keyCode` is `e.keyCode`. -/
def handleKeyDown (keyCode : Nat) (letter : JSString) (control : Bool) :
    List TypingAction × Bool :=
  let actions : List TypingAction :=
    if letter = utf16 "Escape" then [TypingAction.resetTyping]
    else if letter = utf16 "Backspace" then [TypingAction.deleteTyping control]
    else if letter.length = 1 then [TypingAction.insertTyping letter]
    else []
  let prevented : Bool :=
    if letter = utf16 " " then (if keyCode = 32 then true else false) else false
  (actions, prevented)

/-! ## JSON values and `JSON.parse` -/

/-- A JavaScript Number other than NaN, by its exact value: the integer `n`, the
non-integer `m / 2 ^ e` (with `m` odd and `0 < e`), or an infinity. The two zeros are
one value, as they are for `===` and for the members of a `Set`; NaN, which no JSON
text denotes, is left out. `JSNumber.isFinite` tells the finite values of the
binary64 format among these. -/
inductive JSNumber where
  | int (n : Int)
  | frac (m : Int) (e : Nat)
  | infinity (negative : Bool)
  deriving DecidableEq, Repr

/-- A value made by `JSON.parse`. A number is `num n` for the integer `n`, `frac m e`
for the non-integer `m / 2 ^ e`, `inf` for the infinity a text out of range
denotes. An object is its properties in the order of the text. -/
inductive JSON where
  | null
  | bool (b : Bool)
  | num (n : Int)
  | frac (m : Int) (e : Nat)
  | inf (negative : Bool)
  | str (s : JSString)
  | arr (items : List JSON)
  | obj (props : List (JSString × JSON))

/-- A Number as a value of the language. -/
def JSNumber.toJSON : JSNumber → JSON
  | JSNumber.int n => JSON.num n
  | JSNumber.frac m e => JSON.frac m e
  | JSNumber.infinity b => JSON.inf b

/-- Is the value `v` the Number `x`. -/
def JSON.isNumber : JSON → JSNumber → Bool
  | JSON.num a, JSNumber.int b => a == b
  | JSON.frac m e, JSNumber.frac m1 e1 => m == m1 && e == e1
  | JSON.inf a, JSNumber.infinity b => a == b
  | _, _ => false

/-- The exceptions the load effect can meet. -/
inductive JSError where
  | syntaxError
  | typeError
  deriving DecidableEq, Repr

/-- JSON white space: space, tab, line feed, carriage return. -/
def isJSONSpace (c : Nat) : Bool := c == 32 || c == 9 || c == 10 || c == 13

/-- Drops leading JSON white space. -/
def skipWs : JSString → JSString
  | [] => []
  | c :: cs => if isJSONSpace c then skipWs cs else c :: cs

/-- Is the code unit a decimal digit. -/
def isDigit (c : Nat) : Bool := 48 ≤ c && c ≤ 57

/-- The value of a hexadecimal digit, in either case. -/
def hexVal (c : Nat) : Option Nat :=
  if 48 ≤ c ∧ c ≤ 57 then some (c - 48)
  else if 97 ≤ c ∧ c ≤ 102 then some (c - 87)
  else if 65 ≤ c ∧ c ≤ 70 then some (c - 55)
  else none

/-- The code unit named by a one-letter escape. -/
def unescape (e : Nat) : Option Nat :=
  if e = 34 then some 34        -- \"
  else if e = 92 then some 92   -- \\
  else if e = 47 then some 47   -- \/
  else if e = 98 then some 8    -- \b
  else if e = 102 then some 12  -- \f
  else if e = 110 then some 10  -- \n
  else if e = 114 then some 13  -- \r
  else if e = 116 then some 9   -- \t
  else none

/-- Reads a string after its opening quote, up to and including the closing
quote: the string read and the text left. -/
def parseStringBody : JSString → Option (JSString × JSString)
  | [] => none
  | c :: rest =>
    if c = 34 then some ([], rest)
    else if c = 92 then
      match rest with
      | [] => none
      | e :: rest1 =>
        if e = 117 then
          match rest1 with
          | h1 :: h2 :: h3 :: h4 :: rest2 =>
            match hexVal h1, hexVal h2, hexVal h3, hexVal h4 with
            | some a, some b, some c3, some d =>
              match parseStringBody rest2 with
              | some (s, r) => some ((4096 * a + 256 * b + 16 * c3 + d) :: s, r)
              | none => none
            | _, _, _, _ => none
          | _ => none
        else
          match unescape e with
          | some u =>
            match parseStringBody rest1 with
            | some (s, r) => some (u :: s, r)
            | none => none
          | none => none
    else if c < 32 then none
    else
      match parseStringBody rest with
      | some (s, r) => some (c :: s, r)
      | none => none

/-- Reads the longest run of decimal digits: their values and the text left. -/
def takeDigits : JSString → List Nat × JSString
  | [] => ([], [])
  | c :: rest =>
    if isDigit c then ((c - 48) :: (takeDigits rest).1, (takeDigits rest).2)
    else ([], c :: rest)

/-- The number written by a list of decimal digits. -/
def digitsVal (ds : List Nat) : Nat := ds.foldl (fun v d => 10 * v + d) 0

/-- The floor of the binary logarithm of `n` (0 for 0), on fuel `n`. -/
def log2Floor : Nat → Nat → Nat
  | 0, _ => 0
  | fuel + 1, n => if n < 2 then 0 else log2Floor fuel (n / 2) + 1

/-- The floor of the binary logarithm of the ratio `a / b`, for `a` and `b` positive. -/
def log2Ratio (a b : Nat) : Int :=
  if b * 2 ^ log2Floor a a ≤ a * 2 ^ log2Floor b b then
    (log2Floor a a : Int) - (log2Floor b b : Int)
  else (log2Floor a a : Int) - (log2Floor b b : Int) - 1

/-- The integer nearest to `n / d`, a tie going to the even one. -/
def roundHalfEven (n d : Nat) : Nat :=
  if d < 2 * (n % d) ∨ (2 * (n % d) = d ∧ (n / d) % 2 = 1) then n / d + 1 else n / d

/-- Removes factors of two from `m` while binary places remain: `m / 2 ^ j` in lowest
terms. -/
def normBin : Nat → Nat → Nat × Nat
  | m, 0 => (m, 0)
  | m, j + 1 => if m % 2 = 0 then normBin (m / 2) j else (m, j + 1)

/-- The binary exponent of the last place kept when `a / b` is rounded to binary64:
52 places below the leading bit, and never below `-1074`. -/
def ulpExponent (a b : Nat) : Int := max (log2Ratio a b - 52) (-1074)

/-- The Number nearest to `± a / b` (binary64, round to nearest, ties to even): the
ratio is rounded to a whole multiple of `2 ^ k`, `k` its `ulpExponent`; a magnitude
that rounds to `2 ^ 1024` or more (leading bit at place 1024 or above) is an
infinity. -/
def toBinary64 (neg : Bool) (a b : Nat) : JSNumber :=
  if a = 0 then JSNumber.int 0
  else if 0 ≤ ulpExponent a b then
    if log2Floor
        (roundHalfEven a (b * 2 ^ (ulpExponent a b).toNat) * 2 ^ (ulpExponent a b).toNat)
        (roundHalfEven a (b * 2 ^ (ulpExponent a b).toNat) * 2 ^ (ulpExponent a b).toNat)
        < 1024 then
      JSNumber.int ((if neg then -1 else 1) *
        ((roundHalfEven a (b * 2 ^ (ulpExponent a b).toNat) *
          2 ^ (ulpExponent a b).toNat : Nat) : Int))
    else JSNumber.infinity neg
  else
    match normBin (roundHalfEven (a * 2 ^ (-ulpExponent a b).toNat) b)
        (-ulpExponent a b).toNat with
    | (m, 0) => JSNumber.int ((if neg then -1 else 1) * (m : Int))
    | (m, e + 1) => JSNumber.frac ((if neg then -1 else 1) * (m : Int)) (e + 1)

/-- The Number that the decimal `± m * 10 ^ scale` denotes. -/
def mkNumber (neg : Bool) (m : Nat) (scale : Int) : JSON :=
  if 0 ≤ scale then (toBinary64 neg (m * 10 ^ scale.toNat) 1).toJSON
  else (toBinary64 neg m (10 ^ (-scale).toNat)).toJSON

/-- Reads the integer part of a number: `0`, or a non-zero digit and a run of
digits. -/
def parseIntPart : JSString → Option (List Nat × JSString)
  | [] => none
  | d :: r =>
    if d = 48 then some ([0], r)
    else if 49 ≤ d ∧ d ≤ 57 then some ((d - 48) :: (takeDigits r).1, (takeDigits r).2)
    else none

/-- Reads the optional fraction of a number. -/
def parseFraction : JSString → Option (List Nat × JSString)
  | [] => some ([], [])
  | c :: r =>
    if c = 46 then
      if (takeDigits r).1 = [] then none else some (takeDigits r)
    else some ([], c :: r)

/-- Reads the optional exponent of a number. -/
def parseExponent : JSString → Option (Int × JSString)
  | [] => some (0, [])
  | c :: r =>
    if c = 101 ∨ c = 69 then
      match r with
      | 43 :: r1 =>
        if (takeDigits r1).1 = [] then none
        else some ((digitsVal (takeDigits r1).1 : Int), (takeDigits r1).2)
      | 45 :: r1 =>
        if (takeDigits r1).1 = [] then none
        else some (-(digitsVal (takeDigits r1).1 : Int), (takeDigits r1).2)
      | _ =>
        if (takeDigits r).1 = [] then none
        else some ((digitsVal (takeDigits r).1 : Int), (takeDigits r).2)
    else some (0, c :: r)

/-- Reads the unsigned part of a number. -/
def parseUnsigned (neg : Bool) (cs : JSString) : Option (JSON × JSString) :=
  match parseIntPart cs with
  | none => none
  | some (ip, cs2) =>
    match parseFraction cs2 with
    | none => none
    | some (fs, cs3) =>
      match parseExponent cs3 with
      | none => none
      | some (ex, cs4) =>
        some (mkNumber neg (digitsVal (ip ++ fs)) (ex - (fs.length : Int)), cs4)

/-- Reads a JSON number. -/
def parseNumber : JSString → Option (JSON × JSString)
  | [] => none
  | c :: r => if c = 45 then parseUnsigned true r else parseUnsigned false (c :: r)

/-- Sets property `k` of an object to `v`: a property already there keeps its place
and takes the new value, a new one goes last. -/
def setProp : List (JSString × JSON) → JSString → JSON → List (JSString × JSON)
  | [], k, v => [(k, v)]
  | (k1, v1) :: ps, k, v =>
    if k1 = k then (k1, v) :: ps else (k1, v1) :: setProp ps k v

/-- The object with the members read, a repeated key keeping its last value. -/
def mkObject (ms : List (JSString × JSON)) : JSON :=
  JSON.obj (ms.foldl (fun ps m => setProp ps m.1 m.2) [])

/-- Reads the elements of a non-empty array and its closing bracket; `pv` reads
one value. -/
def parseElements (pv : JSString → Option (JSON × JSString)) :
    Nat → JSString → Option (List JSON × JSString)
  | 0, _ => none
  | fuel + 1, cs =>
    match pv cs with
    | none => none
    | some (v, rest) =>
      match skipWs rest with
      | c :: r =>
        if c = 44 then
          match parseElements pv fuel r with
          | some (vs, r1) => some (v :: vs, r1)
          | none => none
        else if c = 93 then some ([v], r)
        else none
      | [] => none

/-- Reads the members of a non-empty object and its closing brace; `pv` reads one
value. -/
def parseMembers (pv : JSString → Option (JSON × JSString)) :
    Nat → JSString → Option (List (JSString × JSON) × JSString)
  | 0, _ => none
  | fuel + 1, cs =>
    match skipWs cs with
    | [] => none
    | q :: r =>
      if q = 34 then
        match parseStringBody r with
        | none => none
        | some (k, r1) =>
          match skipWs r1 with
          | [] => none
          | c :: r2 =>
            if c = 58 then
              match pv r2 with
              | none => none
              | some (v, r3) =>
                match skipWs r3 with
                | [] => none
                | c1 :: r4 =>
                  if c1 = 44 then
                    match parseMembers pv fuel r4 with
                    | some (ms, r5) => some ((k, v) :: ms, r5)
                    | none => none
                  else if c1 = 125 then some ([(k, v)], r4)
                  else none
            else none
      else none

/-- Reads one JSON value after optional white space: the value and the text left.
The fuel bounds the nesting depth and the number of elements of an array or
object; `JSON.parse` gives more than the length of the text. -/
def parseValue : Nat → JSString → Option (JSON × JSString)
  | 0, _ => none
  | fuel + 1, cs =>
    match skipWs cs with
    | [] => none
    | c :: r =>
      if c = 123 then
        match skipWs r with
        | [] => none
        | c1 :: r1 =>
          if c1 = 125 then some (JSON.obj [], r1)
          else
            match parseMembers (fun t => parseValue fuel t) fuel (c1 :: r1) with
            | some (ms, r2) => some (mkObject ms, r2)
            | none => none
      else if c = 91 then
        match skipWs r with
        | [] => none
        | c1 :: r1 =>
          if c1 = 93 then some (JSON.arr [], r1)
          else
            match parseElements (fun t => parseValue fuel t) fuel (c1 :: r1) with
            | some (vs, r2) => some (JSON.arr vs, r2)
            | none => none
      else if c = 34 then
        match parseStringBody r with
        | some (s, r1) => some (JSON.str s, r1)
        | none => none
      else if c = 116 then
        match r with
        | 114 :: 117 :: 101 :: r1 => some (JSON.bool true, r1)
        | _ => none
      else if c = 102 then
        match r with
        | 97 :: 108 :: 115 :: 101 :: r1 => some (JSON.bool false, r1)
        | _ => none
      else if c = 110 then
        match r with
        | 117 :: 108 :: 108 :: r1 => some (JSON.null, r1)
        | _ => none
      else parseNumber (c :: r)

/-- The builtin `JSON.parse`: one value between optional white space, or a
`SyntaxError`. -/
def JSON.parse (s : JSString) : Except JSError JSON :=
  match parseValue (s.length + 1) s with
  | some (v, rest) =>
    if skipWs rest = [] then Except.ok v else Except.error JSError.syntaxError
  | none => Except.error JSError.syntaxError

/-! ## `JSON.stringify` of the two values the widget stores -/

/-- A lower-case hexadecimal digit. -/
def hexDigit (n : Nat) : Nat := if n < 10 then 48 + n else 87 + n

/-- The escape `\uXXXX` of a code unit. -/
def unicodeEscape (c : Nat) : JSString :=
  [92, 117, hexDigit (c / 4096 % 16), hexDigit (c / 256 % 16), hexDigit (c / 16 % 16),
    hexDigit (c % 16)]

/-- Is the code unit a leading surrogate. -/
def isLeadSurrogate (c : Nat) : Bool := 55296 ≤ c && c ≤ 56319

/-- Is the code unit a trailing surrogate. -/
def isTrailSurrogate (c : Nat) : Bool := 56320 ≤ c && c ≤ 57343

/-- The text `QuoteJSONString` writes for a code point that is one code unit and
not a surrogate: a two-character escape, `\u00XX` for the other controls, or the
unit itself. -/
def quoteUnit (c : Nat) : JSString :=
  if c = 8 then [92, 98]
  else if c = 9 then [92, 116]
  else if c = 10 then [92, 110]
  else if c = 12 then [92, 102]
  else if c = 13 then [92, 114]
  else if c = 34 then [92, 34]
  else if c = 92 then [92, 92]
  else if c < 32 then unicodeEscape c
  else [c]

/-- The text between the quotes of `QuoteJSONString`: a surrogate pair is copied,
a lone surrogate is written as `\uXXXX`. -/
def quoteBody : JSString → JSString
  | [] => []
  | [c] =>
    if isLeadSurrogate c || isTrailSurrogate c then unicodeEscape c else quoteUnit c
  | c :: d :: rest =>
    if isLeadSurrogate c then
      if isTrailSurrogate d then c :: d :: quoteBody rest
      else unicodeEscape c ++ quoteBody (d :: rest)
    else if isTrailSurrogate c then unicodeEscape c ++ quoteBody (d :: rest)
    else quoteUnit c ++ quoteBody (d :: rest)

/-- The abstract operation `QuoteJSONString`. -/
def quoteJSONString (s : JSString) : JSString := 34 :: (quoteBody s ++ [34])

/-- The decimal digits of `n` put before `acc`, most significant first. -/
def natDigits : Nat → Nat → JSString → JSString
  | 0, _, acc => acc
  | fuel + 1, n, acc =>
    if n < 10 then (48 + n) :: acc
    else natDigits fuel (n / 10) ((48 + n % 10) :: acc)

/-- The decimal text of a natural number. -/
def natToString (n : Nat) : JSString := natDigits (n + 1) n []

/-- Is the Number negative. -/
def JSNumber.isNegative : JSNumber → Bool
  | JSNumber.int n => decide (n < 0)
  | JSNumber.frac m _ => decide (m < 0)
  | JSNumber.infinity b => b

/-- The magnitude of a finite Number as a ratio of naturals. -/
def JSNumber.magnitude : JSNumber → Nat × Nat
  | JSNumber.int n => (n.natAbs, 1)
  | JSNumber.frac m e => (m.natAbs, 2 ^ e)
  | JSNumber.infinity _ => (0, 1)

/-- Is `x` a finite value of the Number type (binary64): an integer below `2 ^ 1024`
(leading bit below place 1024) whose bits span at most 53 places, or an odd
numerator below `2 ^ 53` over `2 ^ e` with `1 ≤ e ≤ 1074`. -/
def JSNumber.isFinite : JSNumber → Bool
  | JSNumber.int n =>
    decide (log2Floor n.natAbs n.natAbs < 1024) &&
      decide (n.natAbs % 2 ^ (log2Floor n.natAbs n.natAbs - 52) = 0)
  | JSNumber.frac m e =>
    decide (m.natAbs % 2 = 1) && decide (m.natAbs < 2 ^ 53) && decide (1 ≤ e) &&
      decide (e ≤ 1074)
  | JSNumber.infinity _ => false

/-- Does the text, read as a JSON number, denote the Number `x`. -/
def readsAs (t : JSString) (x : JSNumber) : Bool :=
  match parseNumber t with
  | some (v, []) => v.isNumber x
  | _ => false

/-- The count of zeros right after the decimal point of `a / b`, for `0 < a < b`. -/
def leadingZeros : Nat → Nat → Nat → Nat
  | 0, _, _ => 0
  | fuel + 1, a, b => if b ≤ a * 10 then 0 else leadingZeros fuel (a * 10) b + 1

/-- The decimal exponent `n` of `a / b`: `10 ^ (n - 1) ≤ a / b < 10 ^ n`. -/
def decimalExponent (a b : Nat) : Int :=
  if b ≤ a then ((natToString (a / b)).length : Int) else -(leadingZeros b a b : Int)

/-- The two decimals of `k` digits next to `a / b`, the nearer one first (the even one
first when they are as near), as pairs `(s, e)` for `s * 10 ^ e`; one pair when `a / b`
itself has `k` digits. -/
def digitCandidates (a b : Nat) (n : Int) (k : Nat) : List (Nat × Int) :=
  let e : Int := n - k
  let num := if 0 ≤ e then a else a * 10 ^ (-e).toNat
  let den := if 0 ≤ e then b * 10 ^ e.toNat else b
  let s := num / den
  let r := num % den
  if r = 0 then [(s, e)]
  else if 2 * r < den then [(s, e), (s + 1, e)]
  else if den < 2 * r then [(s + 1, e), (s, e)]
  else if s % 2 = 0 then [(s, e), (s + 1, e)]
  else [(s + 1, e), (s, e)]

/-- Drops the zeros that end `s`, counting them into the exponent. -/
def stripZeros : Nat → Nat → Int → Nat × Int
  | 0, s, e => (s, e)
  | fuel + 1, s, e =>
    if s ≠ 0 ∧ s % 10 = 0 then stripZeros fuel (s / 10) (e + 1) else (s, e)

/-- The text of `Number::toString` for the digits of `s` (not ending in zero) and the
exponent `n`, the value being `0.s * 10 ^ n`: plain digits for `-6 < n ≤ 21`, the
exponent form otherwise. -/
def formatDigits (digits : JSString) (n : Int) : JSString :=
  if (digits.length : Int) ≤ n ∧ n ≤ 21 then
    digits ++ List.replicate (n - (digits.length : Int)).toNat 48
  else if 0 < n ∧ n ≤ 21 then digits.take n.toNat ++ 46 :: digits.drop n.toNat
  else if -6 < n ∧ n ≤ 0 then 48 :: 46 :: (List.replicate (-n).toNat 48 ++ digits)
  else
    (match digits with
      | [] => []
      | [d] => [d]
      | d :: rest => d :: 46 :: rest) ++
      101 :: (if 0 ≤ n - 1 then 43 else 45) :: natToString (n - 1).natAbs

/-- The text of `Number::toString` for the decimal `± s * 10 ^ e`. -/
def formatDecimal (neg : Bool) (s : Nat) (e : Int) : JSString :=
  (if neg then [45] else []) ++
    formatDigits (natToString (stripZeros s s e).1)
      (((natToString (stripZeros s s e).1).length : Int) + (stripZeros s s e).2)

/-- The first text, going up in the number of digits from `k`, that reads back as
`x`. -/
def searchDigits (x : JSNumber) (neg : Bool) (a b : Nat) (n : Int) :
    Nat → Nat → Option JSString
  | 0, _ => none
  | fuel + 1, k =>
    match ((digitCandidates a b n k).map (fun c => formatDecimal neg c.1 c.2)).find?
        (fun t => readsAs t x) with
    | some t => some t
    | none => searchDigits x neg a b n fuel (k + 1)

/-- The exact decimal text of a finite Number: an integer, or an integer and a negative
exponent. -/
def exactText : JSNumber → JSString
  | JSNumber.int n => (if n < 0 then [45] else []) ++ natToString n.natAbs
  | JSNumber.frac m e =>
    (if m < 0 then [45] else []) ++
      (natToString (m.natAbs * 5 ^ e) ++ 101 :: 45 :: natToString e)
  | JSNumber.infinity _ => []

/-- The operation `Number::toString` on a finite Number, as ECMA-262 states it: the
digits are the fewest whose decimal denotes the Number (rounds to it), the decimal
nearest to the Number being taken among those; `formatDigits` lays them out.
Seventeen digits always do; the exact text stands behind them to make the function
total. -/
def numberText (x : JSNumber) : JSString :=
  if x.magnitude.1 = 0 then [48]
  else
    match searchDigits x x.isNegative x.magnitude.1 x.magnitude.2
        (decimalExponent x.magnitude.1 x.magnitude.2) 17 1 with
    | some t => t
    | none => exactText x

/-- The text `JSON.stringify` writes for a Number: `Number::toString` of a finite one,
`null` for an infinity. -/
def stringifyNumber (x : JSNumber) : JSString :=
  match x with
  | JSNumber.infinity _ => utf16 "null"
  | _ => numberText x

/-- Joins texts with commas. -/
def joinComma : List JSString → JSString
  | [] => []
  | [x] => x
  | x :: y :: rest => x ++ 44 :: joinComma (y :: rest)

/-- The text `JSON.stringify` writes for an array whose elements have the texts
given. -/
def stringifyArray (items : List JSString) : JSString :=
  91 :: (joinComma items ++ [93])

/-- A task record `{ id, text }` as the storage can hold it: the id is any Number. -/
structure NumericTask where
  id : JSNumber
  text : JSString
  deriving DecidableEq, Repr

/-- A task made by the widget, its id as a Number. -/
def Task.toNumeric (t : Task) : NumericTask := { id := JSNumber.int t.id, text := t.text }

/-- The text `JSON.stringify` writes for one task `{ id, text }`. -/
def stringifyTask (t : NumericTask) : JSString :=
  utf16 "\x7b\"id\":" ++ stringifyNumber t.id ++ utf16 ",\"text\":" ++
    quoteJSONString t.text ++ utf16 "\x7d"

/-- The call `JSON.stringify(tasks)`. -/
def stringifyTasks (ts : List NumericTask) : JSString :=
  stringifyArray (ts.map stringifyTask)

/-- The call `JSON.stringify({ date, completed })` for a date string and an array of
Numbers. -/
def stringifyDailyRecord (date : JSString) (completed : List JSNumber) : JSString :=
  utf16 "\x7b\"date\":" ++ quoteJSONString date ++ utf16 ",\"completed\":" ++
    stringifyArray (completed.map stringifyNumber) ++ utf16 "\x7d"

/-- The call `JSON.stringify({ date, completed })` for a date string and an array of
integer ids. -/
def stringifyDaily (date : JSString) (completed : List Int) : JSString :=
  stringifyDailyRecord date (completed.map JSNumber.int)

/-- The JavaScript value of a task. -/
def NumericTask.toJSON (t : NumericTask) : JSON :=
  JSON.obj [(utf16 "id", t.id.toJSON), (utf16 "text", JSON.str t.text)]

/-! ## Local storage and the three effects -/

/-- The two keys of `localStorage` the widget uses; `none` is the `null` that
`getItem` returns for a key never set. -/
structure Storage where
  regularChecksTasks : Option JSString
  dailyChecks : Option JSString
  deriving DecidableEq, Repr

/-- The part of the component state the save effects read, the ids being any Numbers:
the task list, the members of the completed `Set` in insertion order, and
`isLoaded`. -/
structure NumericState where
  tasks : List NumericTask
  completedTasks : List JSNumber
  isLoaded : Bool

/-- The state of the widget as the save effects read it. -/
def State.toNumeric (st : State) : NumericState :=
  { tasks := st.tasks.map Task.toNumeric
    completedTasks := st.completedTasks.elems.map JSNumber.int
    isLoaded := st.isLoaded }

/-- The effect that saves the completion status (`useEffect` on
`[completedTasks, isLoaded]`); `today` is `getTodayDateString()`. -/
def saveCompletionEffect (today : JSString) (st : NumericState) (ls : Storage) : Storage :=
  if st.isLoaded then
    { ls with dailyChecks := some (stringifyDailyRecord today st.completedTasks) }
  else ls

/-- The effect that saves the task list (`useEffect` on `[tasks, isLoaded]`). -/
def saveTasksEffect (st : NumericState) (ls : Storage) : Storage :=
  if st.isLoaded then { ls with regularChecksTasks := some (stringifyTasks st.tasks) }
  else ls

/-- The component right after the load effect: the values given to `setTasks`,
`setCompletedTasks` and `setIsLoaded` (or the initial ones), the storage, and
the number of calls of `console.error`. The values come from `JSON.parse` and
can have any shape. -/
structure Loaded where
  tasks : JSON
  completedTasks : List JSON
  isLoaded : Bool
  storage : Storage
  consoleErrors : Nat

/-- The component at mount: `useState([])`, `useState(new Set())`,
`useState(false)`. -/
def mount (ls : Storage) : Loaded :=
  { tasks := JSON.arr [], completedTasks := [], isLoaded := false, storage := ls,
    consoleErrors := 0 }

/-- The statement `try { body } catch (error) { console.error(...) }`: no effect of
the load effect comes before a throwing step of its block, so a caught exception
leaves the component as it was, one error logged. -/
def tryCatch (body : Loaded → Except JSError Loaded) (w : Loaded) : Except JSError Loaded :=
  match body w with
  | Except.ok w1 => Except.ok w1
  | Except.error _ => Except.ok { w with consoleErrors := w.consoleErrors + 1 }

/-- The body of the first `try`: load the master list of tasks. -/
def loadTasksBlock (w : Loaded) : Except JSError Loaded :=
  match w.storage.regularChecksTasks with
  | none => Except.ok w
  | some storedTasks =>
    if storedTasks = [] then Except.ok w
    else
      match JSON.parse storedTasks with
      | Except.error e => Except.error e
      | Except.ok v => Except.ok { w with tasks := v }

/-- Reads property `k` of an object made by `JSON.parse`; `none` is `undefined`. -/
def getProp : List (JSString × JSON) → JSString → Option JSON
  | [], _ => none
  | (k1, v1) :: ps, k => if k1 = k then some v1 else getProp ps k

/-- The binding `const { date, completed } = value`: a `TypeError` on `null`,
`undefined` twice on a value that is not an object (no prototype of a JSON value
has either name). -/
def destructure (v : JSON) : Except JSError (Option JSON × Option JSON) :=
  match v with
  | JSON.null => Except.error JSError.typeError
  | JSON.obj props => Except.ok (getProp props (utf16 "date"), getProp props (utf16 "completed"))
  | _ => Except.ok (none, none)

/-- Has a value made by `JSON.parse` a property of its own named `k`. -/
def hasField (v : JSON) (k : JSString) : Bool :=
  match v with
  | JSON.obj props => (getProp props k).isSome
  | _ => false

/-- The test `date === today` against a string. -/
def strictEqualsString (date : Option JSON) (today : JSString) : Bool :=
  match date with
  | some (JSON.str d) => d == today
  | _ => false

/-- The comparison SameValueZero on values made by `JSON.parse`: primitives by
value, arrays and objects by identity, and no two parsed arrays or objects are
the same one. -/
def sameValueZero : JSON → JSON → Bool
  | JSON.null, JSON.null => true
  | JSON.bool a, JSON.bool b => a == b
  | JSON.num a, JSON.num b => a == b
  | JSON.frac m e, JSON.frac m1 e1 => m == m1 && e == e1
  | JSON.inf a, JSON.inf b => a == b
  | JSON.str a, JSON.str b => a == b
  | _, _ => false

/-- The method `Set.prototype.add` on a set of parsed values, kept in insertion
order. -/
def setAdd (s : List JSON) (v : JSON) : List JSON :=
  if s.any (fun x => sameValueZero x v) then s else s ++ [v]

/-- The code points of a string, each as a string (what iterating a string
yields): a surrogate pair is one element. -/
def codePoints : JSString → List JSString
  | [] => []
  | [c] => [[c]]
  | c :: d :: rest =>
    if isLeadSurrogate c && isTrailSurrogate d then [c, d] :: codePoints rest
    else [c] :: codePoints (d :: rest)

/-- The call `new Set(completed)`: empty for `undefined` and `null`, the elements
of an array or the code points of a string, a `TypeError` for a value that is not
iterable. -/
def newSet (completed : Option JSON) : Except JSError (List JSON) :=
  match completed with
  | none => Except.ok []
  | some JSON.null => Except.ok []
  | some (JSON.arr items) => Except.ok (items.foldl setAdd [])
  | some (JSON.str s) => Except.ok (((codePoints s).map JSON.str).foldl setAdd [])
  | some _ => Except.error JSError.typeError

/-- The body of the second `try`: load the completion status for today. -/
def loadCompletionBlock (today : JSString) (w : Loaded) : Except JSError Loaded :=
  match w.storage.dailyChecks with
  | none => Except.ok w
  | some storedCompletionData =>
    if storedCompletionData = [] then Except.ok w
    else
      match JSON.parse storedCompletionData with
      | Except.error e => Except.error e
      | Except.ok v =>
        match destructure v with
        | Except.error e => Except.error e
        | Except.ok (date, completed) =>
          if strictEqualsString date today then
            match newSet completed with
            | Except.error e => Except.error e
            | Except.ok s => Except.ok { w with completedTasks := s }
          else
            Except.ok { w with
              storage := { w.storage with dailyChecks := some (stringifyDaily today []) } }

/-- The load effect, run once on mount; `today` is `getTodayDateString()`, read as the
same date by both calls in the second block. -/
def loadEffect (today : JSString) (ls : Storage) : Except JSError Loaded :=
  match tryCatch loadTasksBlock (mount ls) with
  | Except.error e => Except.error e
  | Except.ok w1 =>
    match tryCatch (loadCompletionBlock today) w1 with
    | Except.error e => Except.error e
    | Except.ok w2 => Except.ok { w2 with isLoaded := true }

/-! ## Invariants and sample states -/

/-- The ids of the task list, in order. -/
def taskIds (st : State) : List Int := st.tasks.map Task.id

/-- Task identifiers are pairwise distinct. -/
def UniqueIds (st : State) : Prop := (taskIds st).Nodup

/-- Every completed id is the id of a task in the list. -/
def CompletedNamesTasks (st : State) : Prop :=
  ∀ k, st.completedTasks.has k = true → k ∈ taskIds st

/-- A storage whose task list is cut short and whose daily record is not an object. -/
def brokenStorage : Storage :=
  { regularChecksTasks := some (utf16 "[\x7b\"id\":5,")
    dailyChecks := some (utf16 "[1, 2]") }

/-- A state as the storage can give it: one task whose id is the non-integer 1.5,
one whose id is a time stamp, the second completed. -/
def numericSample : NumericState :=
  { tasks := [{ id := JSNumber.frac 3 1, text := utf16 "tea \"now\"" },
      { id := JSNumber.int 1700000000000, text := utf16 "water" }]
    completedTasks := [JSNumber.int 1700000000000]
    isLoaded := true }

/-- A state whose one task has the id `Infinity`, as a stored task list with the id
`1e400` gives it, the task being completed. -/
def infiniteIdState : NumericState :=
  { tasks := [{ id := JSNumber.infinity false, text := utf16 "a" }]
    completedTasks := [JSNumber.infinity false]
    isLoaded := true }

/-- A state with one task, its id completed, and a new text typed in. -/
def sampleState : State :=
  { tasks := [{ id := 5, text := utf16 "water" }]
    completedTasks := (IdSet.empty.add 5)
    inputValue := utf16 " feed cat "
    editingTask := some { id := 5, text := utf16 " water plants " }
    isLoaded := true }

/-! ## The handlers -/

theorem IdSet.has_iff (s : IdSet) (k : Int) : s.has k = true ↔ k ∈ s.elems := by
  simp [IdSet.has]

theorem IdSet.has_delete (s : IdSet) (k j : Int) :
    (s.delete k).has j = (s.has j && decide (j ≠ k)) := by
  rw [Bool.eq_iff_iff]
  simp [IdSet.has, IdSet.delete]

theorem IdSet.has_add (s : IdSet) (k j : Int) :
    (s.add k).has j = (s.has j || decide (j = k)) := by
  rw [Bool.eq_iff_iff]
  simp only [Bool.or_eq_true, decide_eq_true_eq, IdSet.has_iff]
  unfold IdSet.add
  split
  · rename_i h
    constructor
    · intro hj; exact Or.inl hj
    · rintro (hj | hj)
      · exact hj
      · exact hj ▸ h
  · simp

/-- C1. Adding a task appends it: when the trimmed input is not empty,
`handleAddTask` yields `tasks ++ [t]` with `t.text` the trimmed input and `t.id`
the timestamp; every earlier task keeps its position, the length grows by one,
and the completed set is unchanged. -/
theorem handleAddTask_appends (now : Int) (st : State) (h : trim st.inputValue ≠ []) :
    (handleAddTask now st).tasks = st.tasks ++ [{ id := now, text := trim st.inputValue }] ∧
    (∀ i, i < st.tasks.length → (handleAddTask now st).tasks[i]? = st.tasks[i]?) ∧
    (handleAddTask now st).tasks.length = st.tasks.length + 1 ∧
    (handleAddTask now st).completedTasks = st.completedTasks := by
  have e : (handleAddTask now st).tasks =
      st.tasks ++ [{ id := now, text := trim st.inputValue }] := by
    simp [handleAddTask, h]
  refine ⟨e, ?_, ?_, ?_⟩
  · intro i hi
    rw [e, List.getElem?_append_left hi]
  · rw [e]; simp
  · simp [handleAddTask, h]

theorem handleAddTask_appends_witness :
    trim sampleState.inputValue ≠ [] ∧
    (handleAddTask 9 sampleState).tasks =
      [{ id := 5, text := utf16 "water" }, { id := 9, text := utf16 "feed cat" }] :=
  ⟨by decide, (handleAddTask_appends 9 sampleState (by decide)).1.trans (by decide)⟩

/-- C2. Deleting a task removes it and its completion flag: after
`handleDeleteTask k` no task has id `k`, `k` is not completed, the tasks left
are those of id other than `k` in their order, and the completed set is the old
one without `k`. -/
theorem handleDeleteTask_removes (k : Int) (st : State) :
    (∀ t ∈ (handleDeleteTask k st).tasks, t.id ≠ k) ∧
    (handleDeleteTask k st).completedTasks.has k = false ∧
    (handleDeleteTask k st).tasks = st.tasks.filter (fun t => decide (t.id ≠ k)) ∧
    (∀ t, t ∈ (handleDeleteTask k st).tasks ↔ t ∈ st.tasks ∧ t.id ≠ k) ∧
    (handleDeleteTask k st).tasks.Sublist st.tasks ∧
    (∀ j, (handleDeleteTask k st).completedTasks.has j =
      (st.completedTasks.has j && decide (j ≠ k))) := by
  have e : (handleDeleteTask k st).tasks = st.tasks.filter (fun t => decide (t.id ≠ k)) := by
    simp only [handleDeleteTask]
    congr 1
    funext t
    by_cases h : t.id = k <;> simp [h]
  refine ⟨?_, ?_, e, ?_, ?_, ?_⟩
  · intro t ht
    rw [e, List.mem_filter] at ht
    simpa using ht.2
  · simp [handleDeleteTask, IdSet.has_delete]
  · intro t
    rw [e, List.mem_filter]
    simp
  · rw [e]; exact List.filter_sublist _
  · intro j
    simp [handleDeleteTask, IdSet.has_delete]

theorem handleDeleteTask_removes_witness :
    (handleDeleteTask 5 sampleState).tasks = [] ∧
    (handleDeleteTask 5 sampleState).completedTasks.has 5 = false :=
  ⟨(handleDeleteTask_removes 5 sampleState).2.2.1.trans (by decide),
    (handleDeleteTask_removes 5 sampleState).2.1⟩

/-- C3. Toggling twice gives back a set with the same members; one toggle flips
the membership of `k` and of no other id; the task list is not touched. -/
theorem handleTaskToggle_twice (k : Int) (st : State) :
    (∀ j, (handleTaskToggle k (handleTaskToggle k st)).completedTasks.has j =
      st.completedTasks.has j) ∧
    (handleTaskToggle k st).completedTasks.has k = !st.completedTasks.has k ∧
    (∀ j, j ≠ k → (handleTaskToggle k st).completedTasks.has j = st.completedTasks.has j) ∧
    (handleTaskToggle k st).tasks = st.tasks := by
  have one : ∀ (s : State) (j : Int), (handleTaskToggle k s).completedTasks.has j =
      (if j = k then !s.completedTasks.has k else s.completedTasks.has j) := by
    intro s j
    simp only [handleTaskToggle]
    cases hk : s.completedTasks.has k
    · by_cases hj : j = k
      · subst hj; simp [IdSet.has_add]
      · simp [IdSet.has_add, hj]
    · by_cases hj : j = k
      · subst hj; simp [IdSet.has_delete]
      · simp [IdSet.has_delete, hj]
  refine ⟨?_, ?_, ?_, rfl⟩
  · intro j
    rw [one, one]
    by_cases hj : j = k
    · subst hj; simp
    · simp [hj, one]
  · rw [one]; simp
  · intro j hj
    rw [one]; simp [hj]

theorem handleTaskToggle_twice_witness :
    (handleTaskToggle 5 sampleState).completedTasks.has 5 = false ∧
    (handleTaskToggle 5 (handleTaskToggle 5 sampleState)).completedTasks.has 5 = true :=
  ⟨(handleTaskToggle_twice 5 sampleState).2.1.trans (by decide),
    ((handleTaskToggle_twice 5 sampleState).1 5).trans (by decide)⟩

theorem taskIds_handleSaveEdit (st : State) : taskIds (handleSaveEdit st) = taskIds st := by
  unfold handleSaveEdit taskIds
  split
  · rfl
  · split
    · rfl
    · simp only [List.map_map]
      apply List.map_congr_left
      intro t _
      simp only [Function.comp]
      split <;> rfl

theorem taskIds_handleDeleteTask (k : Int) (st : State) :
    taskIds (handleDeleteTask k st) = (taskIds st).filter (fun j => j != k) := by
  simp only [taskIds, handleDeleteTask, List.filter_map]
  rfl

theorem taskIds_handleAddTask (now : Int) (st : State) :
    taskIds (handleAddTask now st) =
      if trim st.inputValue = [] then taskIds st else taskIds st ++ [now] := by
  unfold handleAddTask taskIds
  split <;> simp

/-- C7, at an input where it fails: a task with id 5 is in the list and the clock
reads 5 when the next task is added; the ids were distinct and are not any more. -/
theorem handleAddTask_duplicate_id :
    UniqueIds sampleState ∧ ¬ UniqueIds (handleAddTask 5 sampleState) := by
  constructor
  · unfold UniqueIds; decide
  · unfold UniqueIds; decide

/-- C7, amended. From a task list with pairwise distinct ids, `handleDeleteTask`,
`handleDeleteAll`, `handleSaveEdit` and `handleTaskToggle` yield pairwise distinct
ids, and so does `handleAddTask` for every input text when the timestamp is not
the id of a task already in the list. -/
theorem uniqueIds_preserved (st : State) (h : UniqueIds st) :
    (∀ now, now ∉ taskIds st → UniqueIds (handleAddTask now st)) ∧
    (∀ k, UniqueIds (handleDeleteTask k st)) ∧
    (∀ confirmed, UniqueIds (handleDeleteAll confirmed st)) ∧
    UniqueIds (handleSaveEdit st) ∧
    (∀ k, UniqueIds (handleTaskToggle k st)) := by
  unfold UniqueIds at *
  refine ⟨?_, ?_, ?_, ?_, ?_⟩
  · intro now hnow
    rw [taskIds_handleAddTask]
    split
    · exact h
    · rw [List.nodup_append]
      refine ⟨h, List.nodup_singleton now, ?_⟩
      intro a ha hb
      rw [List.mem_singleton] at hb
      exact hnow (hb ▸ ha)
  · intro k
    rw [taskIds_handleDeleteTask]
    exact h.filter _
  · intro confirmed
    cases confirmed
    · exact h
    · simp [handleDeleteAll, taskIds]
  · rw [taskIds_handleSaveEdit]; exact h
  · intro k; exact h

theorem uniqueIds_preserved_witness :
    UniqueIds sampleState ∧ (9 : Int) ∉ taskIds sampleState ∧
    UniqueIds (handleAddTask 9 sampleState) :=
  ⟨by unfold UniqueIds; decide, by decide,
    (uniqueIds_preserved sampleState (by unfold UniqueIds; decide)).1 9 (by decide)⟩

/-- C8. If every completed id is the id of a task in the list, this still holds
after `handleAddTask`, `handleDeleteTask k`, `handleDeleteAll` (confirmed or
declined), `handleSaveEdit`, and `handleTaskToggle k` for `k` the id of a task in
the list; and the counter shows `completedTasks.size ≤ tasks.length`. -/
theorem completedNamesTasks_preserved (st : State) (h : CompletedNamesTasks st) :
    (∀ now, CompletedNamesTasks (handleAddTask now st)) ∧
    (∀ k, CompletedNamesTasks (handleDeleteTask k st)) ∧
    (∀ confirmed, CompletedNamesTasks (handleDeleteAll confirmed st)) ∧
    CompletedNamesTasks (handleSaveEdit st) ∧
    (∀ k, k ∈ taskIds st → CompletedNamesTasks (handleTaskToggle k st)) ∧
    (∀ s : State, CompletedNamesTasks s → (completedCounter s).1 ≤ (completedCounter s).2) := by
  refine ⟨?_, ?_, ?_, ?_, ?_, ?_⟩
  · intro now k hk
    rw [taskIds_handleAddTask]
    have hc : (handleAddTask now st).completedTasks = st.completedTasks := by
      unfold handleAddTask; split <;> rfl
    rw [hc] at hk
    split
    · exact h k hk
    · exact List.mem_append_left _ (h k hk)
  · intro k j hj
    rw [taskIds_handleDeleteTask, List.mem_filter]
    have hj2 : (st.completedTasks.delete k).has j = true := hj
    rw [IdSet.has_delete, Bool.and_eq_true, decide_eq_true_eq] at hj2
    exact ⟨h j hj2.1, by simpa using hj2.2⟩
  · intro confirmed
    cases confirmed
    · exact h
    · intro k hk
      simp [handleDeleteAll, IdSet.has, IdSet.empty] at hk
  · intro k hk
    rw [taskIds_handleSaveEdit]
    have hc : (handleSaveEdit st).completedTasks = st.completedTasks := by
      unfold handleSaveEdit
      split
      · rfl
      · split <;> rfl
    rw [hc] at hk
    exact h k hk
  · intro k hk j hj
    have ht : taskIds (handleTaskToggle k st) = taskIds st := rfl
    rw [ht]
    have hj2 : (if st.completedTasks.has k then st.completedTasks.delete k
        else st.completedTasks.add k).has j = true := hj
    split at hj2
    · rw [IdSet.has_delete, Bool.and_eq_true] at hj2
      exact h j hj2.1
    · rw [IdSet.has_add, Bool.or_eq_true, decide_eq_true_eq] at hj2
      rcases hj2 with hj2 | hj2
      · exact h j hj2
      · exact hj2 ▸ hk
  · intro s hs
    have hsub : s.completedTasks.elems ⊆ taskIds s := by
      intro k hk
      exact hs k ((IdSet.has_iff _ _).2 hk)
    have hle := (s.completedTasks.nodup.subperm hsub).length_le
    simpa [completedCounter, IdSet.size, taskIds] using hle

theorem completedNamesTasks_preserved_witness :
    CompletedNamesTasks sampleState ∧ CompletedNamesTasks (handleDeleteTask 5 sampleState) :=
  have h0 : CompletedNamesTasks sampleState := by
    intro k hk
    rw [IdSet.has_iff] at hk
    have hk5 : k = 5 := by simpa [sampleState, IdSet.add, IdSet.empty] using hk
    subst hk5
    decide
  ⟨h0, (completedNamesTasks_preserved sampleState h0).2.1 5⟩

/-- C9. Saving an edit changes only the text of the edited task: with an editing
record of non-empty trimmed text the list keeps its length and its ids in order,
each task with the edited id takes the trimmed text as its text, the others are
as they were, and the completed set is unchanged; with no editing record or an
empty trimmed text the task list is as it was. -/
theorem handleSaveEdit_frame (st : State) :
    (∀ e, st.editingTask = some e → trim e.text ≠ [] →
      (handleSaveEdit st).tasks.length = st.tasks.length ∧
      taskIds (handleSaveEdit st) = taskIds st ∧
      (∀ (i : Nat) (t : Task), st.tasks[i]? = some t →
        (handleSaveEdit st).tasks[i]? =
          some (if t.id = e.id then { id := t.id, text := trim e.text } else t)) ∧
      (handleSaveEdit st).completedTasks = st.completedTasks) ∧
    (st.editingTask = none → (handleSaveEdit st).tasks = st.tasks) ∧
    (∀ e, st.editingTask = some e → trim e.text = [] →
      (handleSaveEdit st).tasks = st.tasks) := by
  refine ⟨?_, ?_, ?_⟩
  · intro e he ht
    have hs : (handleSaveEdit st).tasks = st.tasks.map (fun task =>
        if task.id = e.id then { task with text := trim e.text } else task) := by
      simp [handleSaveEdit, he, ht]
    refine ⟨?_, taskIds_handleSaveEdit st, ?_, ?_⟩
    · rw [hs, List.length_map]
    · intro i t hi
      rw [hs, List.getElem?_map, hi]
      rfl
    · simp [handleSaveEdit, he, ht]
  · intro he
    simp [handleSaveEdit, he]
  · intro e he ht
    simp [handleSaveEdit, he, ht]

theorem handleSaveEdit_frame_witness :
    sampleState.editingTask = some { id := 5, text := utf16 " water plants " } ∧
    (handleSaveEdit sampleState).tasks[0]? = some { id := 5, text := utf16 "water plants" } :=
  ⟨rfl, ((handleSaveEdit_frame sampleState).1 { id := 5, text := utf16 " water plants " }
    rfl (by decide)).2.2.1 0 { id := 5, text := utf16 "water" } rfl⟩

/-! ## The typing widget -/

/-- C10. `handleKeyDown` calls one typing action or none: `Escape` calls
`resetTyping` only, `Backspace` calls `deleteTyping` with the control flag only,
any other key name of length one (the space too) calls `insertTyping` with that
name only, and a key name of any other length calls no typing action. -/
theorem handleKeyDown_dispatch (keyCode : Nat) (letter : JSString) (control : Bool) :
    (letter = utf16 "Escape" →
      (handleKeyDown keyCode letter control).1 = [TypingAction.resetTyping]) ∧
    (letter = utf16 "Backspace" →
      (handleKeyDown keyCode letter control).1 = [TypingAction.deleteTyping control]) ∧
    (letter.length = 1 →
      (handleKeyDown keyCode letter control).1 = [TypingAction.insertTyping letter]) ∧
    (letter = utf16 " " →
      (handleKeyDown keyCode letter control).1 = [TypingAction.insertTyping (utf16 " ")]) ∧
    (letter ≠ utf16 "Escape" → letter ≠ utf16 "Backspace" → letter.length ≠ 1 →
      (handleKeyDown keyCode letter control).1 = []) ∧
    (handleKeyDown keyCode letter control).1.length ≤ 1 := by
  have hE : (utf16 "Escape").length = 6 := by decide
  have hB : (utf16 "Backspace").length = 9 := by decide
  have hEB : utf16 "Escape" ≠ utf16 "Backspace" := by decide
  have hS : (utf16 " ").length = 1 := by decide
  have key : letter.length = 1 →
      (handleKeyDown keyCode letter control).1 = [TypingAction.insertTyping letter] := by
    intro h1
    have h2 : letter ≠ utf16 "Escape" := by
      intro h; rw [h, hE] at h1; omega
    have h3 : letter ≠ utf16 "Backspace" := by
      intro h; rw [h, hB] at h1; omega
    simp [handleKeyDown, h1, h2, h3]
  refine ⟨?_, ?_, key, ?_, ?_, ?_⟩
  · intro h
    simp [handleKeyDown, h]
  · intro h
    subst h
    simp [handleKeyDown, Ne.symm hEB]
  · intro h
    have := key (h ▸ hS)
    rw [this, h]
  · intro h1 h2 h3
    simp [handleKeyDown, h1, h2, h3]
  · simp only [handleKeyDown]
    split
    · simp
    · split
      · simp
      · split <;> simp

theorem handleKeyDown_dispatch_witness :
    (handleKeyDown 13 (utf16 "Enter") false).1 = [] ∧
    (handleKeyDown 65 (utf16 "a") false).1 = [TypingAction.insertTyping (utf16 "a")] ∧
    (handleKeyDown 8 (utf16 "Backspace") true).1 = [TypingAction.deleteTyping true] :=
  ⟨(handleKeyDown_dispatch 13 (utf16 "Enter") false).2.2.2.2.1
      (by decide) (by decide) (by decide),
    (handleKeyDown_dispatch 65 (utf16 "a") false).2.2.1 (by decide),
    (handleKeyDown_dispatch 8 (utf16 "Backspace") true).2.1 rfl⟩

/-! ## Reading back a quoted string -/

theorem hexVal_hexDigit (x : Nat) (h : x < 16) : hexVal (hexDigit x) = some x := by
  interval_cases x <;> rfl

theorem parseStringBody_quote (rest : JSString) :
    parseStringBody (34 :: rest) = some ([], rest) := by
  rw [parseStringBody.eq_def]; simp

theorem parseStringBody_raw (c : Nat) (rest s r : JSString) (h1 : c ≠ 34) (h2 : c ≠ 92)
    (h3 : ¬ c < 32) (h : parseStringBody rest = some (s, r)) :
    parseStringBody (c :: rest) = some (c :: s, r) := by
  rw [parseStringBody.eq_def]; simp [h1, h2, h3, h]

theorem parseStringBody_short (e u : Nat) (rest s r : JSString) (h1 : e ≠ 117)
    (h2 : unescape e = some u) (h : parseStringBody rest = some (s, r)) :
    parseStringBody (92 :: e :: rest) = some (u :: s, r) := by
  rw [parseStringBody.eq_def]; simp [h1, h2, h]

theorem parseStringBody_u (h1 h2 h3 h4 a b c d : Nat) (rest s r : JSString)
    (e1 : hexVal h1 = some a) (e2 : hexVal h2 = some b) (e3 : hexVal h3 = some c)
    (e4 : hexVal h4 = some d) (h : parseStringBody rest = some (s, r)) :
    parseStringBody (92 :: 117 :: h1 :: h2 :: h3 :: h4 :: rest) =
      some ((4096 * a + 256 * b + 16 * c + d) :: s, r) := by
  rw [parseStringBody.eq_def]; simp [e1, e2, e3, e4, h]

theorem parseStringBody_unicodeEscape (c : Nat) (rest s r : JSString) (hc : c < 65536)
    (h : parseStringBody rest = some (s, r)) :
    parseStringBody (unicodeEscape c ++ rest) = some (c :: s, r) := by
  have e1 := hexVal_hexDigit (c / 4096 % 16) (Nat.mod_lt _ (by norm_num))
  have e2 := hexVal_hexDigit (c / 256 % 16) (Nat.mod_lt _ (by norm_num))
  have e3 := hexVal_hexDigit (c / 16 % 16) (Nat.mod_lt _ (by norm_num))
  have e4 := hexVal_hexDigit (c % 16) (Nat.mod_lt _ (by norm_num))
  have e := parseStringBody_u _ _ _ _ _ _ _ _ rest s r e1 e2 e3 e4 h
  have hv : 4096 * (c / 4096 % 16) + 256 * (c / 256 % 16) + 16 * (c / 16 % 16) + c % 16 = c := by
    omega
  rw [hv] at e
  exact e

theorem parseStringBody_quoteUnit (c : Nat) (rest s r : JSString)
    (h : parseStringBody rest = some (s, r)) :
    parseStringBody (quoteUnit c ++ rest) = some (c :: s, r) := by
  unfold quoteUnit
  split_ifs with h8 h9 h10 h12 h13 h34 h92 h32
  · subst h8; exact parseStringBody_short 98 8 rest s r (by decide) (by decide) h
  · subst h9; exact parseStringBody_short 116 9 rest s r (by decide) (by decide) h
  · subst h10; exact parseStringBody_short 110 10 rest s r (by decide) (by decide) h
  · subst h12; exact parseStringBody_short 102 12 rest s r (by decide) (by decide) h
  · subst h13; exact parseStringBody_short 114 13 rest s r (by decide) (by decide) h
  · subst h34; exact parseStringBody_short 34 34 rest s r (by decide) (by decide) h
  · subst h92; exact parseStringBody_short 92 92 rest s r (by decide) (by decide) h
  · exact parseStringBody_unicodeEscape c rest s r (by omega) h
  · exact parseStringBody_raw c rest s r h34 h92 h32 h

theorem parseStringBody_surrogate (c : Nat) (rest s r : JSString)
    (hc : (isLeadSurrogate c || isTrailSurrogate c) = true)
    (h : parseStringBody rest = some (s, r)) :
    parseStringBody (c :: rest) = some (c :: s, r) ∧
    parseStringBody (unicodeEscape c ++ rest) = some (c :: s, r) := by
  simp only [isLeadSurrogate, isTrailSurrogate, Bool.or_eq_true, Bool.and_eq_true,
    decide_eq_true_eq] at hc
  exact ⟨parseStringBody_raw c rest s r (by omega) (by omega) (by omega) h,
    parseStringBody_unicodeEscape c rest s r (by omega) h⟩

/-- What `QuoteJSONString` writes between the quotes reads back as the string. -/
theorem parseStringBody_quoteBody (s rest : JSString) :
    parseStringBody (quoteBody s ++ 34 :: rest) = some (s, rest) := by
  induction s using quoteBody.induct with
  | case1 => exact parseStringBody_quote rest
  | case2 c hc =>
    simp only [quoteBody, hc, if_true]
    exact (parseStringBody_surrogate c _ _ _ hc (parseStringBody_quote rest)).2
  | case3 c hc =>
    simp only [quoteBody, hc]
    exact parseStringBody_quoteUnit c _ _ _ (parseStringBody_quote rest)
  | case4 c d tl hc hd ih =>
    simp only [quoteBody, hc, hd, if_true, List.cons_append]
    have h1 := (parseStringBody_surrogate d _ _ _ (by simp [hd]) ih).1
    exact (parseStringBody_surrogate c _ _ _ (by simp [hc]) h1).1
  | case5 c d tl hc hd ih =>
    simp only [quoteBody, hc, hd, if_true, List.append_assoc]
    exact (parseStringBody_surrogate c _ _ _ (by simp [hc]) ih).2
  | case6 c d tl hc hd ih =>
    simp only [quoteBody, hc, hd, if_true, List.append_assoc]
    exact (parseStringBody_surrogate c _ _ _ (by simp [hd]) ih).2
  | case7 c d tl hc hd ih =>
    simp only [quoteBody, hc, hd, Bool.false_eq_true, if_false, List.append_assoc]
    exact parseStringBody_quoteUnit c _ _ _ ih

/-! ## Reading back a decimal number -/

theorem takeDigits_cons_digit (c : Nat) (rest : JSString) (h1 : 48 ≤ c) (h2 : c ≤ 57) :
    takeDigits (c :: rest) = ((c - 48) :: (takeDigits rest).1, (takeDigits rest).2) := by
  simp [takeDigits, isDigit, h1, h2]

theorem takeDigits_cons_other (c : Nat) (rest : JSString) (h : isDigit c = false) :
    takeDigits (c :: rest) = ([], c :: rest) := by
  simp [takeDigits, h]

theorem digitsVal_append_one (ds : List Nat) (d : Nat) :
    digitsVal (ds ++ [d]) = 10 * digitsVal ds + d := by
  simp [digitsVal, List.foldl_append]

theorem takeDigits_natDigits (fuel : Nat) : ∀ (n : Nat) (acc : JSString), n < fuel →
    ∃ ds, takeDigits (natDigits fuel n acc) = (ds ++ (takeDigits acc).1, (takeDigits acc).2) ∧
      digitsVal ds = n := by
  induction fuel with
  | zero => intro n acc h; omega
  | succ fuel ih =>
    intro n acc h
    by_cases h10 : n < 10
    · refine ⟨[n], ?_, by simp [digitsVal]⟩
      simp only [natDigits, h10, if_true]
      rw [takeDigits_cons_digit _ _ (by omega) (by omega)]
      simp
    · obtain ⟨ds, h1, h2⟩ := ih (n / 10) ((48 + n % 10) :: acc) (by omega)
      refine ⟨ds ++ [n % 10], ?_, ?_⟩
      · simp only [natDigits, h10, if_false]
        rw [h1, takeDigits_cons_digit _ _ (by omega) (by omega)]
        simp
      · rw [digitsVal_append_one, h2]; omega

theorem natDigits_head (fuel : Nat) : ∀ (n : Nat) (acc : JSString), n < fuel →
    ∃ c tl, natDigits fuel n acc = c :: tl ∧ 48 ≤ c ∧ c ≤ 57 ∧ (c = 48 → n = 0 ∧ tl = acc) := by
  induction fuel with
  | zero => intro n acc h; omega
  | succ fuel ih =>
    intro n acc h
    by_cases h10 : n < 10
    · refine ⟨48 + n, acc, by simp [natDigits, h10], by omega, by omega, ?_⟩
      intro h0
      exact ⟨by omega, rfl⟩
    · obtain ⟨c, tl, h1, h2, h3, h4⟩ := ih (n / 10) ((48 + n % 10) :: acc) (by omega)
      refine ⟨c, tl, by simp [natDigits, h10, h1], h2, h3, ?_⟩
      intro h0
      have := (h4 h0).1
      omega

theorem natDigits_append (fuel : Nat) : ∀ (n : Nat) (acc : JSString),
    natDigits fuel n acc = natDigits fuel n [] ++ acc := by
  induction fuel with
  | zero => intro n acc; simp [natDigits]
  | succ fuel ih =>
    intro n acc
    by_cases h10 : n < 10
    · simp [natDigits, h10]
    · simp only [natDigits, h10, if_false]
      rw [ih (n / 10) ((48 + n % 10) :: acc), ih (n / 10) [48 + n % 10]]
      simp

/-- The text after a number: a comma, a closing bracket or a closing brace. -/
theorem parseIntPart_natToString (n c : Nat) (rest : JSString) (hc : isDigit c = false) :
    ∃ ds, parseIntPart (natToString n ++ c :: rest) = some (ds, c :: rest) ∧ digitsVal ds = n := by
  have e : natToString n ++ c :: rest = natDigits (n + 1) n (c :: rest) := by
    rw [natToString, ← natDigits_append]
  obtain ⟨d, tl, h1, h2, h3, h4⟩ := natDigits_head (n + 1) n (c :: rest) (by omega)
  obtain ⟨ds, h5, h6⟩ := takeDigits_natDigits (n + 1) n (c :: rest) (by omega)
  rw [e, h1]
  by_cases h0 : d = 48
  · obtain ⟨hn, htl⟩ := h4 h0
    refine ⟨[0], ?_, by simp [digitsVal, hn]⟩
    simp [parseIntPart, h0, htl]
  · refine ⟨ds, ?_, h6⟩
    rw [h1, takeDigits_cons_digit _ _ h2 h3, takeDigits_cons_other _ _ hc] at h5
    simp only [parseIntPart, h0, if_false]
    rw [if_pos ⟨by omega, h3⟩, h5]
    simp

/-! ## Rounding leaves a binary64 value as it is -/

theorem log2Floor_spec (fuel : Nat) : ∀ n : Nat, n ≤ fuel → n ≠ 0 →
    2 ^ log2Floor fuel n ≤ n ∧ n < 2 ^ (log2Floor fuel n + 1) := by
  induction fuel with
  | zero => intro n h h0; omega
  | succ fuel ih =>
    intro n h h0
    by_cases h2 : n < 2
    · have h1 : n = 1 := by omega
      subst h1
      simp [log2Floor]
    · obtain ⟨l1, l2⟩ := ih (n / 2) (by omega) (by omega)
      simp only [log2Floor, h2, if_false]
      rw [pow_succ, pow_succ]
      rw [pow_succ] at l2
      constructor <;> omega

theorem log2Floor_le (a : Nat) (h : a ≠ 0) : 2 ^ log2Floor a a ≤ a :=
  (log2Floor_spec a a (Nat.le_refl a) h).1

theorem lt_log2Floor (a : Nat) (h : a ≠ 0) : a < 2 ^ (log2Floor a a + 1) :=
  (log2Floor_spec a a (Nat.le_refl a) h).2

/-- The binary logarithm of a ratio, as a difference of naturals that bounds the
ratio from below. -/
theorem log2Ratio_le (a b : Nat) (ha : a ≠ 0) (hb : b ≠ 0) :
    ∃ P Q : Nat, log2Ratio a b = (P : Int) - (Q : Int) ∧ b * 2 ^ P ≤ a * 2 ^ Q := by
  unfold log2Ratio
  split
  · rename_i h
    exact ⟨_, _, rfl, h⟩
  · refine ⟨log2Floor a a, log2Floor b b + 1, by push_cast; ring, ?_⟩
    have h1 := log2Floor_le a ha
    have h2 := lt_log2Floor b hb
    calc b * 2 ^ log2Floor a a ≤ 2 ^ (log2Floor b b + 1) * a :=
          Nat.mul_le_mul (Nat.le_of_lt h2) h1
      _ = a * 2 ^ (log2Floor b b + 1) := Nat.mul_comm _ _

theorem log2Ratio_one (a : Nat) (ha : a ≠ 0) : log2Ratio a 1 = (log2Floor a a : Int) := by
  have h1 := log2Floor_le a ha
  have h0 : log2Floor 1 1 = 0 := by decide
  unfold log2Ratio
  rw [h0]
  simp [h1]

theorem roundHalfEven_exact (q d : Nat) (hd : 0 < d) : roundHalfEven (q * d) d = q := by
  unfold roundHalfEven
  have h1 : q * d % d = 0 := Nat.mul_mod_left q d
  have h2 : q * d / d = q := Nat.mul_div_cancel q hd
  rw [h1, h2]
  have : ¬ (d < 2 * 0 ∨ (2 * 0 = d ∧ q % 2 = 1)) := by omega
  rw [if_neg this]

theorem normBin_mul_pow (m : Nat) (t : Nat) : ∀ j : Nat,
    normBin (m * 2 ^ t) (j + t) = normBin m j := by
  induction t with
  | zero => intro j; simp
  | succ t ih =>
    intro j
    have e1 : j + (t + 1) = (j + t) + 1 := by omega
    have e2 : m * 2 ^ (t + 1) % 2 = 0 := by
      rw [pow_succ, ← Nat.mul_assoc]; exact Nat.mul_mod_left _ 2
    have e3 : m * 2 ^ (t + 1) / 2 = m * 2 ^ t := by
      rw [pow_succ, ← Nat.mul_assoc]; exact Nat.mul_div_cancel _ (by decide)
    rw [e1, normBin, if_pos e2, e3]
    exact ih j

theorem normBin_odd (m e : Nat) (h : m % 2 = 1) : normBin m (e + 1) = (m, e + 1) := by
  rw [normBin, if_neg (by omega)]

theorem roundHalfEven_mul_pow (a t : Nat) (h : a % 2 ^ t = 0) :
    roundHalfEven a (2 ^ t) * 2 ^ t = a := by
  obtain ⟨q, hq⟩ : ∃ q, a = q * 2 ^ t :=
    ⟨a / 2 ^ t, by
      have := Nat.div_add_mod a (2 ^ t)
      rw [h, Nat.add_zero, Nat.mul_comm] at this
      exact this.symm⟩
  rw [hq, roundHalfEven_exact q _ (pow_pos (by decide) _)]

/-- Rounding a representable integer gives it back. -/
theorem toBinary64_int (neg : Bool) (a : Nat) (h1 : log2Floor a a < 1024)
    (h2 : a % 2 ^ (log2Floor a a - 52) = 0) :
    toBinary64 neg a 1 = JSNumber.int ((if neg then -1 else 1) * (a : Int)) := by
  by_cases ha : a = 0
  · subst ha; simp [toBinary64]
  · unfold toBinary64 ulpExponent
    rw [if_neg ha, log2Ratio_one a ha]
    by_cases hp : 52 ≤ log2Floor a a
    · have hk : max ((log2Floor a a : Int) - 52) (-1074) = ((log2Floor a a - 52 : Nat) : Int) := by
        omega
      rw [hk]
      simp only [Int.natCast_nonneg, if_true, Int.toNat_ofNat, Nat.one_mul]
      have hr := roundHalfEven_mul_pow a (log2Floor a a - 52) h2
      rw [hr, if_pos h1]
    · have hk : max ((log2Floor a a : Int) - 52) (-1074) = -((52 - log2Floor a a : Nat) : Int) := by
        omega
      rw [hk]
      have hneg : ¬ (0 : Int) ≤ -((52 - log2Floor a a : Nat) : Int) := by omega
      rw [if_neg hneg]
      simp only [neg_neg, Int.toNat_ofNat]
      have hr : roundHalfEven (a * 2 ^ (52 - log2Floor a a)) 1 = a * 2 ^ (52 - log2Floor a a) := by
        have := roundHalfEven_exact (a * 2 ^ (52 - log2Floor a a)) 1 (by decide)
        rw [Nat.mul_one] at this
        exact this
      rw [hr]
      have hn := normBin_mul_pow a (52 - log2Floor a a) 0
      rw [Nat.zero_add] at hn
      rw [hn]
      simp [normBin]

/-- Rounding a representable non-integer, written as a decimal, gives it back. -/
theorem toBinary64_frac (neg : Bool) (m e : Nat) (h1 : m % 2 = 1) (h2 : m < 2 ^ 53)
    (h3 : 1 ≤ e) (h4 : e ≤ 1074) :
    toBinary64 neg (m * 5 ^ e) (10 ^ e) = JSNumber.frac ((if neg then -1 else 1) * (m : Int)) e := by
  have h5 : 0 < 5 ^ e := pow_pos (by decide) _
  have hm : m ≠ 0 := by omega
  have ha : m * 5 ^ e ≠ 0 := Nat.mul_ne_zero hm (Nat.pos_iff_ne_zero.1 h5)
  have hb : 10 ^ e ≠ 0 := Nat.pos_iff_ne_zero.1 (pow_pos (by decide) _)
  have h10 : 10 ^ e = 2 ^ e * 5 ^ e := by
    rw [← Nat.mul_pow]
  obtain ⟨P, Q, hE, hPQ⟩ := log2Ratio_le (m * 5 ^ e) (10 ^ e) ha hb
  have hlt : e + P < 53 + Q := by
    by_contra hcon
    have hge : 53 + Q ≤ e + P := by omega
    have c1 : 2 ^ (53 + Q) ≤ 2 ^ (e + P) := Nat.pow_le_pow_right (by decide) hge
    have c2 : 2 ^ (e + P) * 5 ^ e ≤ m * 2 ^ Q * 5 ^ e := by
      calc 2 ^ (e + P) * 5 ^ e = 10 ^ e * 2 ^ P := by rw [h10, pow_add]; ring
        _ ≤ m * 5 ^ e * 2 ^ Q := hPQ
        _ = m * 2 ^ Q * 5 ^ e := by ring
    have c3 : 2 ^ (e + P) ≤ m * 2 ^ Q := Nat.le_of_mul_le_mul_right c2 h5
    have c4 : m * 2 ^ Q < 2 ^ 53 * 2 ^ Q :=
      Nat.mul_lt_mul_of_pos_right h2 (pow_pos (by decide) _)
    rw [← pow_add] at c4
    omega
  obtain ⟨j, hj1, hj2⟩ : ∃ j : Nat, e ≤ j ∧
      max (log2Ratio (m * 5 ^ e) (10 ^ e) - 52) (-1074) = -(j : Int) := by
    refine ⟨(-(max (log2Ratio (m * 5 ^ e) (10 ^ e) - 52) (-1074))).toNat, ?_, ?_⟩ <;> omega
  unfold toBinary64 ulpExponent
  rw [if_neg ha, hj2]
  have hneg : ¬ (0 : Int) ≤ -(j : Int) := by omega
  rw [if_neg hneg]
  simp only [neg_neg, Int.toNat_ofNat]
  have hN : m * 5 ^ e * 2 ^ j = (m * 2 ^ (j - e)) * 10 ^ e := by
    have : j = (j - e) + e := by omega
    conv_lhs => rw [this, pow_add]
    rw [h10]; ring
  rw [hN, roundHalfEven_exact _ _ (pow_pos (by decide) _)]
  have hn := normBin_mul_pow m (j - e) e
  have hje : e + (j - e) = j := by omega
  rw [hje] at hn
  rw [hn]
  obtain ⟨e1, rfl⟩ : ∃ e1, e = e1 + 1 := ⟨e - 1, by omega⟩
  rw [normBin_odd m e1 h1]

theorem takeDigits_natToString (n : Nat) :
    ∃ ds, takeDigits (natToString n) = (ds, []) ∧ digitsVal ds = n ∧ ds ≠ [] := by
  obtain ⟨ds, h1, h2⟩ := takeDigits_natDigits (n + 1) n [] (by omega)
  obtain ⟨c, tl, h3, h4, h5, _⟩ := natDigits_head (n + 1) n [] (by omega)
  refine ⟨ds, ?_, h2, ?_⟩
  · rw [natToString, h1]; simp [takeDigits]
  · intro hds
    rw [h3, takeDigits_cons_digit _ _ h4 h5, hds] at h1
    simp [takeDigits] at h1

theorem parseIntPart_natToString_end (n : Nat) :
    ∃ ds, parseIntPart (natToString n) = some (ds, []) ∧ digitsVal ds = n := by
  obtain ⟨d, tl, h1, h2, h3, h4⟩ := natDigits_head (n + 1) n [] (by omega)
  obtain ⟨ds, h5, h6, _⟩ := takeDigits_natToString n
  rw [natToString] at h5 ⊢
  rw [h1] at h5 ⊢
  by_cases h0 : d = 48
  · obtain ⟨hn, htl⟩ := h4 h0
    refine ⟨[0], ?_, by simp [digitsVal, hn]⟩
    simp [parseIntPart, h0, htl]
  · refine ⟨ds, ?_, h6⟩
    rw [takeDigits_cons_digit _ _ h2 h3] at h5
    simp only [parseIntPart, h0, if_false]
    rw [if_pos ⟨by omega, h3⟩, h5]

/-- The digits of a natural number read as the decimal they write. -/
theorem parseUnsigned_natToString (neg : Bool) (n : Nat) :
    parseUnsigned neg (natToString n) = some ((toBinary64 neg n 1).toJSON, []) := by
  obtain ⟨ds, h1, h2⟩ := parseIntPart_natToString_end n
  simp [parseUnsigned, h1, parseFraction, parseExponent, h2, mkNumber]

/-- The digits of `M`, `e-` and the digits of `e` read as the decimal `M / 10 ^ e`. -/
theorem parseUnsigned_exponent (neg : Bool) (M e : Nat) (he : 1 ≤ e) :
    parseUnsigned neg (natToString M ++ 101 :: 45 :: natToString e) =
      some ((toBinary64 neg M (10 ^ e)).toJSON, []) := by
  obtain ⟨ds, h1, h2⟩ := parseIntPart_natToString M 101 (45 :: natToString e) rfl
  obtain ⟨es, h3, h4, h5⟩ := takeDigits_natToString e
  have hf : parseFraction (101 :: 45 :: natToString e) = some ([], 101 :: 45 :: natToString e) := by
    simp [parseFraction]
  have hx : parseExponent (101 :: 45 :: natToString e) = some (-(e : Int), []) := by
    rw [parseExponent.eq_def]
    simp [h3, h4, h5]
  have hs : ¬ (0 : Int) ≤ -(e : Int) := by omega
  simp [parseUnsigned, h1, hf, hx, h2, mkNumber, hs]

theorem natToString_head (n : Nat) :
    ∃ c tl, natToString n = c :: tl ∧ 48 ≤ c ∧ c ≤ 57 := by
  obtain ⟨c, tl, h1, h2, h3, _⟩ := natDigits_head (n + 1) n [] (by omega)
  exact ⟨c, tl, h1, h2, h3⟩

theorem parseNumber_signed (neg : Bool) (t : JSString) (c : Nat) (tl : JSString)
    (ht : t = c :: tl) (hc : 48 ≤ c ∧ c ≤ 57) :
    parseNumber ((if neg then [45] else []) ++ t) = parseUnsigned neg t := by
  subst ht
  cases neg
  · simp only [Bool.false_eq_true, if_false, List.nil_append, parseNumber]
    rw [if_neg (by omega)]
  · simp [parseNumber]

theorem isNumber_eq (v : JSON) (x : JSNumber) (h : v.isNumber x = true) : v = x.toJSON := by
  cases v <;> cases x <;> simp_all [JSON.isNumber, JSNumber.toJSON]

theorem isNumber_toJSON (x : JSNumber) : x.toJSON.isNumber x = true := by
  cases x <;> simp [JSON.isNumber, JSNumber.toJSON]

theorem readsAs_iff (t : JSString) (x : JSNumber) :
    readsAs t x = true ↔ parseNumber t = some (x.toJSON, []) := by
  unfold readsAs
  constructor
  · intro h
    split at h
    · rename_i v hv
      rw [hv, isNumber_eq v x h]
    · cases h
  · intro h
    rw [h]
    exact isNumber_toJSON x

/-- The exact text of a finite Number reads back as the Number. -/
theorem readsAs_exactText (x : JSNumber) (h : x.isFinite = true) :
    readsAs (exactText x) x = true := by
  rw [readsAs_iff]
  cases x with
  | int n =>
    simp only [JSNumber.isFinite, Bool.and_eq_true, decide_eq_true_eq] at h
    obtain ⟨c, tl, h1, h2⟩ := natToString_head n.natAbs
    have e := parseNumber_signed (decide (n < 0)) _ c tl h1 h2
    simp only [decide_eq_true_eq] at e
    simp only [exactText]
    rw [e, parseUnsigned_natToString, toBinary64_int _ _ h.1 h.2]
    simp only [JSNumber.toJSON, decide_eq_true_eq]
    congr 3
    split <;> omega
  | frac m e =>
    simp only [JSNumber.isFinite, Bool.and_eq_true, decide_eq_true_eq] at h
    obtain ⟨⟨⟨h1, h2⟩, h3⟩, h4⟩ := h
    obtain ⟨c, tl, hh1, hh2⟩ := natToString_head (m.natAbs * 5 ^ e)
    have e1 := parseNumber_signed (decide (m < 0))
      (natToString (m.natAbs * 5 ^ e) ++ 101 :: 45 :: natToString e) c
      (tl ++ 101 :: 45 :: natToString e) (by rw [hh1]; rfl) hh2
    simp only [decide_eq_true_eq] at e1
    simp only [exactText]
    rw [e1, parseUnsigned_exponent _ _ _ h3, toBinary64_frac _ _ _ h1 h2 h3 h4]
    simp only [JSNumber.toJSON, decide_eq_true_eq]
    congr 3
    split <;> omega
  | infinity b => simp [JSNumber.isFinite] at h

theorem searchDigits_readsAs (x : JSNumber) (neg : Bool) (a b : Nat) (n : Int) :
    ∀ (fuel k : Nat) (t : JSString), searchDigits x neg a b n fuel k = some t →
      readsAs t x = true := by
  intro fuel
  induction fuel with
  | zero => intro k t h; simp [searchDigits] at h
  | succ fuel ih =>
    intro k t h
    simp only [searchDigits] at h
    split at h
    · rename_i t1 h1
      injection h with h
      subst h
      have := List.find?_some h1
      exact this
    · exact ih _ _ h

/-- The text of `Number::toString` reads back as the Number. -/
theorem readsAs_numberText (x : JSNumber) (h : x.isFinite = true) :
    readsAs (numberText x) x = true := by
  unfold numberText
  split
  · rename_i h0
    cases x with
    | int n =>
      have hn : n = 0 := by simpa [JSNumber.magnitude] using h0
      subst hn
      decide
    | frac m e =>
      simp only [JSNumber.isFinite, Bool.and_eq_true, decide_eq_true_eq] at h
      simp only [JSNumber.magnitude] at h0
      omega
    | infinity b => simp [JSNumber.isFinite] at h
  · split
    · rename_i t ht
      exact searchDigits_readsAs _ _ _ _ _ _ _ _ ht
    · exact readsAs_exactText x h

/-! ## A number read to its end reads the same before a comma or a closing bracket -/

theorem takeDigits_append (c : Nat) (rest : JSString) (hc : isDigit c = false) :
    ∀ t : JSString, takeDigits (t ++ c :: rest) =
      ((takeDigits t).1, (takeDigits t).2 ++ c :: rest) := by
  intro t
  induction t with
  | nil => simp [takeDigits, hc]
  | cons d tl ih =>
    by_cases hd : isDigit d = true
    · simp only [List.cons_append, takeDigits, hd, if_true]
      rw [show tl.append (c :: rest) = tl ++ c :: rest from rfl, ih]
    · simp only [List.cons_append, takeDigits, hd, if_false]
      simp

theorem parseIntPart_append (c : Nat) (rest : JSString) (hc : isDigit c = false)
    (t r : JSString) (ip : List Nat) (h : parseIntPart t = some (ip, r)) :
    parseIntPart (t ++ c :: rest) = some (ip, r ++ c :: rest) := by
  cases t with
  | nil => simp [parseIntPart] at h
  | cons d tl =>
    simp only [List.cons_append, parseIntPart] at h ⊢
    split at h
    · rename_i h0
      injection h with h; injection h with h1 h2
      subst h1; subst h2
      rw [if_pos h0]
    · rename_i h0
      split at h
      · rename_i h1
        injection h with h; injection h with h2 h3
        rw [if_neg h0, if_pos h1, takeDigits_append c rest hc, ← h2, ← h3]
      · cases h

theorem parseFraction_append (c : Nat) (rest : JSString) (hc : isDigit c = false)
    (h46 : c ≠ 46) (t r : JSString) (fs : List Nat) (h : parseFraction t = some (fs, r)) :
    parseFraction (t ++ c :: rest) = some (fs, r ++ c :: rest) := by
  cases t with
  | nil =>
    simp only [parseFraction] at h
    injection h with h; injection h with h1 h2
    subst h1; subst h2
    simp [parseFraction, h46]
  | cons d tl =>
    simp only [List.cons_append, parseFraction] at h ⊢
    split at h
    · rename_i h0
      split at h
      · cases h
      · rename_i h1
        injection h with h
        rw [if_pos h0, takeDigits_append c rest hc, if_neg h1]
        rw [h]
    · rename_i h0
      injection h with h; injection h with h1 h2
      subst h1; subst h2
      rw [if_neg h0]
      rfl

theorem parseExponent_append (c : Nat) (rest : JSString) (hc : isDigit c = false)
    (he : c ≠ 101 ∧ c ≠ 69) (t r : JSString) (ex : Int)
    (h : parseExponent t = some (ex, r)) :
    parseExponent (t ++ c :: rest) = some (ex, r ++ c :: rest) := by
  cases t with
  | nil =>
    simp only [parseExponent] at h
    injection h with h; injection h with h1 h2
    subst h1; subst h2
    rw [List.nil_append, parseExponent.eq_def]
    simp [he.1, he.2]
  | cons d tl =>
    rw [parseExponent.eq_def] at h
    rw [List.cons_append, parseExponent.eq_def]
    simp only at h ⊢
    split at h
    · rename_i h0
      rw [if_pos h0]
      split at h
      · rename_i r1
        split at h
        · cases h
        · rename_i h1
          injection h with h; injection h with h2 h3
          simp only [List.cons_append]
          rw [takeDigits_append c rest hc, if_neg h1, ← h2, ← h3]
      · rename_i r1
        split at h
        · cases h
        · rename_i h1
          injection h with h; injection h with h2 h3
          simp only [List.cons_append]
          rw [takeDigits_append c rest hc, if_neg h1, ← h2, ← h3]
      · rename_i hn43 hn45
        split at h
        · cases h
        · rename_i h1
          injection h with h; injection h with h2 h3
          cases tl with
          | nil => simp [takeDigits] at h1
          | cons x r1 =>
            have x43 : x ≠ 43 := fun hx => hn43 r1 (by rw [hx])
            have x45 : x ≠ 45 := fun hx => hn45 r1 (by rw [hx])
            simp only [List.cons_append]
            split
            · rename_i r2 heq
              injection heq with heq _
              exact absurd heq x43
            · rename_i r2 heq
              injection heq with heq _
              exact absurd heq x45
            · have := takeDigits_append c rest hc (x :: r1)
              simp only [List.cons_append] at this
              rw [this, if_neg h1, ← h2, ← h3]
    · rename_i h0
      rw [if_neg h0]
      injection h with h; injection h with h2 h3
      rw [← h2, ← h3]
      rfl

theorem parseUnsigned_append (neg : Bool) (c : Nat) (rest : JSString)
    (hc : c = 44 ∨ c = 93 ∨ c = 125) (t r : JSString) (v : JSON)
    (h : parseUnsigned neg t = some (v, r)) :
    parseUnsigned neg (t ++ c :: rest) = some (v, r ++ c :: rest) := by
  have hd : isDigit c = false := by
    rcases hc with h | h | h <;> subst h <;> rfl
  have h46 : c ≠ 46 := by omega
  have he : c ≠ 101 ∧ c ≠ 69 := by omega
  unfold parseUnsigned at h ⊢
  split at h
  · cases h
  · rename_i ip cs2 h1
    rw [parseIntPart_append c rest hd t cs2 ip h1]
    simp only
    split at h
    · cases h
    · rename_i fs cs3 h2
      rw [parseFraction_append c rest hd h46 cs2 cs3 fs h2]
      simp only
      split at h
      · cases h
      · rename_i ex cs4 h3
        rw [parseExponent_append c rest hd he cs3 cs4 ex h3]
        simp only
        injection h with h; injection h with h4 h5
        rw [h4, h5]

/-- A number read to the end of its text is read the same when a comma, a closing
bracket or a closing brace follows. -/
theorem parseNumber_append (c : Nat) (rest : JSString)
    (hc : c = 44 ∨ c = 93 ∨ c = 125) (t : JSString) (v : JSON)
    (h : parseNumber t = some (v, [])) :
    parseNumber (t ++ c :: rest) = some (v, c :: rest) := by
  cases t with
  | nil => simp [parseNumber] at h
  | cons d tl =>
    simp only [List.cons_append, parseNumber] at h ⊢
    split at h
    · rename_i h0
      rw [if_pos h0, parseUnsigned_append true c rest hc tl [] v h]
      rfl
    · rename_i h0
      rw [if_neg h0]
      have := parseUnsigned_append false c rest hc (d :: tl) [] v h
      simpa using this

theorem parseNumber_head (t r : JSString) (v : JSON) (h : parseNumber t = some (v, r)) :
    ∃ d tl, t = d :: tl ∧ (d = 45 ∨ (48 ≤ d ∧ d ≤ 57)) := by
  cases t with
  | nil => simp [parseNumber] at h
  | cons d tl =>
    refine ⟨d, tl, rfl, ?_⟩
    by_cases h45 : d = 45
    · exact Or.inl h45
    · right
      simp only [parseNumber, h45, if_false] at h
      unfold parseUnsigned at h
      split at h
      · cases h
      · rename_i ip cs2 h1
        simp only [parseIntPart] at h1
        split at h1
        · omega
        · split at h1
          · omega
          · cases h1

/-- The text `JSON.stringify` writes for a finite Number, followed by a comma, a
closing bracket or a closing brace, reads back as the Number. -/
theorem parseNumber_stringifyNumber (x : JSNumber) (hx : x.isFinite = true) (c : Nat)
    (rest : JSString) (hc : c = 44 ∨ c = 93 ∨ c = 125) :
    parseNumber (stringifyNumber x ++ c :: rest) = some (x.toJSON, c :: rest) := by
  have h1 := (readsAs_iff _ _).1 (readsAs_numberText x hx)
  have h2 : stringifyNumber x = numberText x := by
    cases x with
    | infinity b => simp [JSNumber.isFinite] at hx
    | int n => rfl
    | frac m e => rfl
  rw [h2]
  exact parseNumber_append c rest hc _ _ h1

theorem stringifyNumber_head (x : JSNumber) (hx : x.isFinite = true) :
    ∃ c tl, stringifyNumber x = c :: tl ∧ (c = 45 ∨ (48 ≤ c ∧ c ≤ 57)) := by
  have h1 := (readsAs_iff _ _).1 (readsAs_numberText x hx)
  have h2 : stringifyNumber x = numberText x := by
    cases x with
    | infinity b => simp [JSNumber.isFinite] at hx
    | int n => rfl
    | frac m e => rfl
  rw [h2]
  exact parseNumber_head _ _ _ h1

/-! ## Reading back arrays and objects -/

theorem parseStringBody_plain (k rest : JSString)
    (h : ∀ c ∈ k, c ≠ 34 ∧ c ≠ 92 ∧ ¬ c < 32) :
    parseStringBody (k ++ 34 :: rest) = some (k, rest) := by
  induction k with
  | nil => exact parseStringBody_quote rest
  | cons c tl ih =>
    have hc := h c (List.mem_cons_self c tl)
    exact parseStringBody_raw c _ _ _ hc.1 hc.2.1 hc.2.2
      (ih (fun x hx => h x (List.mem_cons_of_mem c hx)))

theorem skipWs_cons (c : Nat) (rest : JSString) (h : isJSONSpace c = false) :
    skipWs (c :: rest) = c :: rest := by
  simp [skipWs, h]

theorem parseElements_last (pv : JSString → Option (JSON × JSString)) (fuel : Nat)
    (cs rest : JSString) (v : JSON) (h : pv cs = some (v, 93 :: rest)) :
    parseElements pv (fuel + 1) cs = some ([v], rest) := by
  simp [parseElements, h, skipWs, isJSONSpace]

theorem parseElements_more (pv : JSString → Option (JSON × JSString)) (fuel : Nat)
    (cs r rest : JSString) (v : JSON) (vs : List JSON) (h : pv cs = some (v, 44 :: r))
    (h1 : parseElements pv fuel r = some (vs, rest)) :
    parseElements pv (fuel + 1) cs = some (v :: vs, rest) := by
  simp [parseElements, h, h1, skipWs, isJSONSpace]

theorem parseMembers_last (pv : JSString → Option (JSON × JSString)) (fuel : Nat)
    (k cs rest : JSString) (v : JSON) (hk : ∀ c ∈ k, c ≠ 34 ∧ c ≠ 92 ∧ ¬ c < 32)
    (h : pv cs = some (v, 125 :: rest)) :
    parseMembers pv (fuel + 1) (34 :: (k ++ 34 :: 58 :: cs)) = some ([(k, v)], rest) := by
  simp [parseMembers, parseStringBody_plain k _ hk, h, skipWs, isJSONSpace]

theorem parseMembers_more (pv : JSString → Option (JSON × JSString)) (fuel : Nat)
    (k cs r rest : JSString) (v : JSON) (ms : List (JSString × JSON))
    (hk : ∀ c ∈ k, c ≠ 34 ∧ c ≠ 92 ∧ ¬ c < 32)
    (h : pv cs = some (v, 44 :: r)) (h1 : parseMembers pv fuel r = some (ms, rest)) :
    parseMembers pv (fuel + 1) (34 :: (k ++ 34 :: 58 :: cs)) = some ((k, v) :: ms, rest) := by
  simp [parseMembers, parseStringBody_plain k _ hk, h, h1, skipWs, isJSONSpace]

theorem parseValue_object (fuel : Nat) (cs rest : JSString)
    (ms : List (JSString × JSON))
    (h : parseMembers (fun t => parseValue fuel t) fuel (34 :: cs) = some (ms, rest)) :
    parseValue (fuel + 1) (123 :: 34 :: cs) = some (mkObject ms, rest) := by
  simp [parseValue, h, skipWs, isJSONSpace]

theorem parseValue_string (fuel : Nat) (s rest : JSString) :
    parseValue (fuel + 1) (quoteJSONString s ++ rest) = some (JSON.str s, rest) := by
  simp [parseValue, quoteJSONString, skipWs, isJSONSpace, parseStringBody_quoteBody]

theorem parseValue_number (fuel : Nat) (x : JSNumber) (hx : x.isFinite = true) (c : Nat)
    (rest : JSString) (hc : c = 44 ∨ c = 93 ∨ c = 125) :
    parseValue (fuel + 1) (stringifyNumber x ++ c :: rest) = some (x.toJSON, c :: rest) := by
  have e := parseNumber_stringifyNumber x hx c rest hc
  obtain ⟨d, tl, h1, h2⟩ := stringifyNumber_head x hx
  rw [h1] at e ⊢
  rw [List.cons_append] at e ⊢
  have hs : isJSONSpace d = false := by
    rcases h2 with h | h
    · subst h; rfl
    · simp only [isJSONSpace, Bool.or_eq_false_iff, beq_eq_false_iff_ne]
      omega
  rw [parseValue, skipWs_cons _ _ hs]
  simp only
  rw [if_neg (by omega), if_neg (by omega), if_neg (by omega), if_neg (by omega),
    if_neg (by omega), if_neg (by omega), e]

/-- An array written by `JSON.stringify` reads back element by element, when each
element does. -/
theorem parseElements_joinComma {α : Type} (enc : α → JSString) (val : α → JSON)
    (pv : JSString → Option (JSON × JSString)) (rest : JSString) :
    ∀ (xs : List α) (fuel : Nat), xs ≠ [] → xs.length ≤ fuel →
    (∀ a ∈ xs, ∀ c r, c = 44 ∨ c = 93 → pv (enc a ++ c :: r) = some (val a, c :: r)) →
    parseElements pv fuel (joinComma (xs.map enc) ++ 93 :: rest) = some (xs.map val, rest) := by
  intro xs
  induction xs with
  | nil => intro fuel h0; exact absurd rfl h0
  | cons a tl ih =>
    intro fuel _ hf h
    obtain ⟨f, rfl⟩ : ∃ f, fuel = f + 1 := ⟨fuel - 1, by simp at hf; omega⟩
    have ha := h a (List.mem_cons_self a tl)
    cases tl with
    | nil =>
      simp only [List.map, joinComma]
      exact parseElements_last pv f _ rest _ (ha 93 rest (Or.inr rfl))
    | cons b tl2 =>
      have ih2 := ih f (by simp) (by simp at hf ⊢; omega)
        (fun x hx => h x (List.mem_cons_of_mem a hx))
      simp only [List.map, joinComma, List.append_assoc, List.cons_append] at ih2 ⊢
      exact parseElements_more pv f _ _ rest _ _ (ha 44 _ (Or.inl rfl)) ih2

theorem parseValue_stringifyArray {α : Type} (enc : α → JSString) (val : α → JSON)
    (fuel : Nat) (xs : List α)
    (h : ∀ a ∈ xs, ∀ c r, c = 44 ∨ c = 93 →
      parseValue fuel (enc a ++ c :: r) = some (val a, c :: r))
    (hh : ∀ a ∈ xs, ∃ c tl, enc a = c :: tl ∧ isJSONSpace c = false ∧ c ≠ 93)
    (hf : xs.length ≤ fuel) (rest : JSString) :
    parseValue (fuel + 1) (stringifyArray (xs.map enc) ++ rest) =
      some (JSON.arr (xs.map val), rest) := by
  cases xs with
  | nil => simp [stringifyArray, joinComma, parseValue, skipWs, isJSONSpace]
  | cons a tl =>
    have e := parseElements_joinComma enc val (fun t => parseValue fuel t) rest (a :: tl) fuel
      (by simp) hf h
    obtain ⟨c, tl1, h1, h2, h3⟩ : ∃ c tl1, joinComma ((a :: tl).map enc) = c :: tl1 ∧
        isJSONSpace c = false ∧ c ≠ 93 := by
      obtain ⟨c, t1, h1, h2, h3⟩ := hh a (List.mem_cons_self a tl)
      cases tl with
      | nil => exact ⟨c, t1, by simp [joinComma, h1], h2, h3⟩
      | cons b tl2 =>
        exact ⟨c, t1 ++ 44 :: joinComma ((b :: tl2).map enc), by simp [joinComma, h1], h2, h3⟩
    rw [h1, List.cons_append] at e
    simp only [stringifyArray, List.cons_append, List.append_assoc, List.nil_append]
    rw [h1, List.cons_append, parseValue]
    have h91 : isJSONSpace 91 = false := rfl
    rw [skipWs_cons _ _ h91]
    simp only [if_true, Nat.reduceEqDiff, if_false]
    rw [skipWs_cons _ _ h2]
    simp only [h3, if_false, e]

/-! ## Reading back the two stored texts -/

theorem plain_id : ∀ c ∈ utf16 "id", c ≠ 34 ∧ c ≠ 92 ∧ ¬ c < 32 := by decide

theorem plain_text : ∀ c ∈ utf16 "text", c ≠ 34 ∧ c ≠ 92 ∧ ¬ c < 32 := by decide

theorem plain_date : ∀ c ∈ utf16 "date", c ≠ 34 ∧ c ≠ 92 ∧ ¬ c < 32 := by decide

theorem plain_completed : ∀ c ∈ utf16 "completed", c ≠ 34 ∧ c ≠ 92 ∧ ¬ c < 32 := by decide

theorem stringifyTask_shape (t : NumericTask) (rest : JSString) :
    stringifyTask t ++ rest =
      123 :: 34 :: (utf16 "id" ++ 34 :: 58 :: (stringifyNumber t.id ++ 44 :: 34 ::
        (utf16 "text" ++ 34 :: 58 :: (quoteJSONString t.text ++ 125 :: rest)))) := by
  have l1 : utf16 "\x7b\"id\":" = 123 :: 34 :: (utf16 "id" ++ [34, 58]) := by decide
  have l2 : utf16 ",\"text\":" = 44 :: 34 :: (utf16 "text" ++ [34, 58]) := by decide
  have l3 : utf16 "\x7d" = [125] := by decide
  simp only [stringifyTask, l1, l2, l3, List.append_assoc, List.cons_append, List.nil_append]

theorem stringifyDailyRecord_shape (date : JSString) (completed : List JSNumber)
    (rest : JSString) :
    stringifyDailyRecord date completed ++ rest =
      123 :: 34 :: (utf16 "date" ++ 34 :: 58 :: (quoteJSONString date ++ 44 :: 34 ::
        (utf16 "completed" ++ 34 :: 58 ::
          (stringifyArray (completed.map stringifyNumber) ++ 125 :: rest)))) := by
  have l1 : utf16 "\x7b\"date\":" = 123 :: 34 :: (utf16 "date" ++ [34, 58]) := by decide
  have l2 : utf16 ",\"completed\":" = 44 :: 34 :: (utf16 "completed" ++ [34, 58]) := by decide
  have l3 : utf16 "\x7d" = [125] := by decide
  simp only [stringifyDailyRecord, l1, l2, l3, List.append_assoc, List.cons_append,
    List.nil_append]

theorem parseValue_stringifyTask (fuel : Nat) (t : NumericTask) (ht : t.id.isFinite = true)
    (rest : JSString) :
    parseValue (fuel + 3) (stringifyTask t ++ rest) = some (t.toJSON, rest) := by
  rw [stringifyTask_shape]
  have m2 := parseMembers_last (fun s => parseValue (fuel + 2) s) fuel (utf16 "text")
    (quoteJSONString t.text ++ 125 :: rest) rest (JSON.str t.text) plain_text
    (parseValue_string (fuel + 1) t.text (125 :: rest))
  have m1 := parseMembers_more (fun s => parseValue (fuel + 2) s) (fuel + 1) (utf16 "id")
    _ _ rest t.id.toJSON _ plain_id
    (parseValue_number (fuel + 1) t.id ht 44 _ (Or.inl rfl)) m2
  rw [parseValue_object (fuel + 2) _ rest _ m1]
  have hk : utf16 "id" ≠ utf16 "text" := by decide
  simp [mkObject, setProp, NumericTask.toJSON, hk]

theorem isJSONSpace_numberHead (c : Nat) (h : c = 45 ∨ (48 ≤ c ∧ c ≤ 57)) :
    isJSONSpace c = false ∧ c ≠ 93 := by
  refine ⟨?_, by omega⟩
  rcases h with h | h
  · subst h; rfl
  · simp only [isJSONSpace, Bool.or_eq_false_iff, beq_eq_false_iff_ne]
    omega

theorem parseValue_stringifyDailyRecord (fuel : Nat) (date : JSString)
    (completed : List JSNumber) (hc : ∀ k ∈ completed, k.isFinite = true)
    (rest : JSString) (hf : completed.length ≤ fuel) :
    parseValue (fuel + 4) (stringifyDailyRecord date completed ++ rest) =
      some (JSON.obj [(utf16 "date", JSON.str date),
        (utf16 "completed", JSON.arr (completed.map JSNumber.toJSON))], rest) := by
  rw [stringifyDailyRecord_shape]
  have ha := parseValue_stringifyArray stringifyNumber JSNumber.toJSON (fuel + 2) completed
    (fun a ha c r hc1 => parseValue_number (fuel + 1) a (hc a ha) c r (by omega))
    (fun a ha => by
      obtain ⟨c, tl, h1, h2⟩ := stringifyNumber_head a (hc a ha)
      exact ⟨c, tl, h1, (isJSONSpace_numberHead c h2).1, (isJSONSpace_numberHead c h2).2⟩)
    (by omega) (125 :: rest)
  have m2 := parseMembers_last (fun s => parseValue (fuel + 3) s) (fuel + 1) (utf16 "completed")
    _ rest _ plain_completed ha
  have m3 := parseMembers_more (fun s => parseValue (fuel + 3) s) (fuel + 2) (utf16 "date")
    _ _ rest (JSON.str date) _ plain_date
    (parseValue_string (fuel + 2) date (44 :: _)) m2
  rw [parseValue_object (fuel + 3) _ rest _ m3]
  have hk : utf16 "date" ≠ utf16 "completed" := by decide
  simp [mkObject, setProp, hk]

theorem length_joinComma (xs : List JSString) (h : ∀ x ∈ xs, 1 ≤ x.length) :
    xs.length ≤ (joinComma xs).length := by
  induction xs with
  | nil => simp
  | cons a tl ih =>
    cases tl with
    | nil => simpa [joinComma] using h a (List.mem_cons_self a [])
    | cons b tl2 =>
      have := ih (fun x hx => h x (List.mem_cons_of_mem a hx))
      simp only [joinComma, List.length_append, List.length_cons] at this ⊢
      omega

theorem length_stringifyArray (xs : List JSString) (h : ∀ x ∈ xs, 1 ≤ x.length) :
    xs.length + 2 ≤ (stringifyArray xs).length := by
  have := length_joinComma xs h
  simp only [stringifyArray, List.length_cons, List.length_append, List.length_nil]
  omega

/-- The text `JSON.stringify(tasks)` parses back to the array of the tasks, when the
ids are finite. -/
theorem parse_stringifyTasks (ts : List NumericTask) (hts : ∀ t ∈ ts, t.id.isFinite = true) :
    JSON.parse (stringifyTasks ts) = Except.ok (JSON.arr (ts.map NumericTask.toJSON)) := by
  cases ts with
  | nil => rfl
  | cons a tl =>
    have hl := length_stringifyArray ((a :: tl).map stringifyTask) (by
      intro x hx
      obtain ⟨t, _, rfl⟩ := List.mem_map.1 hx
      have := stringifyTask_shape t []
      rw [List.append_nil] at this
      rw [this]
      simp)
    obtain ⟨f, hf⟩ : ∃ f, (stringifyTasks (a :: tl)).length = f + 3 :=
      ⟨(stringifyTasks (a :: tl)).length - 3, by
        simp only [stringifyTasks, List.length_map, List.length_cons] at hl ⊢
        omega⟩
    have e := parseValue_stringifyArray stringifyTask NumericTask.toJSON (f + 3) (a :: tl)
      (fun t ht c r _ => parseValue_stringifyTask f t (hts t ht) (c :: r))
      (fun t _ => ⟨123, _, by
        have := stringifyTask_shape t []
        rw [List.append_nil] at this
        exact this, rfl, by decide⟩)
      (by
        simp only [stringifyTasks, List.length_map, List.length_cons] at hl hf ⊢
        omega) []
    rw [List.append_nil] at e
    simp only [JSON.parse, hf]
    rw [show stringifyTasks (a :: tl) = stringifyArray ((a :: tl).map stringifyTask) from rfl, e]
    simp [skipWs]

/-- The text `JSON.stringify({ date, completed })` parses back to that record, when the
members of `completed` are finite. -/
theorem parse_stringifyDailyRecord (date : JSString) (completed : List JSNumber)
    (hc : ∀ k ∈ completed, k.isFinite = true) :
    JSON.parse (stringifyDailyRecord date completed) =
      Except.ok (JSON.obj [(utf16 "date", JSON.str date),
        (utf16 "completed", JSON.arr (completed.map JSNumber.toJSON))]) := by
  have hl : completed.length + 4 ≤ (stringifyDailyRecord date completed).length := by
    have h1 := length_stringifyArray (completed.map stringifyNumber) (by
      intro x hx
      obtain ⟨n, hn, rfl⟩ := List.mem_map.1 hx
      obtain ⟨c, tl, h1, _⟩ := stringifyNumber_head n (hc n hn)
      rw [h1]; simp)
    have h2 := stringifyDailyRecord_shape date completed []
    rw [List.append_nil] at h2
    rw [h2]
    simp only [List.length_cons, List.length_append, List.length_map] at h1 ⊢
    omega
  obtain ⟨f, hf, hf2⟩ : ∃ f, (stringifyDailyRecord date completed).length = f + 3 ∧
      completed.length ≤ f :=
    ⟨(stringifyDailyRecord date completed).length - 3, by omega, by omega⟩
  have e := parseValue_stringifyDailyRecord f date completed hc [] hf2
  rw [List.append_nil] at e
  simp only [JSON.parse, hf, e]
  simp [skipWs]

theorem stringifyTasks_ne_nil (ts : List NumericTask) : stringifyTasks ts ≠ [] := by
  simp [stringifyTasks, stringifyArray]

theorem stringifyDailyRecord_ne_nil (date : JSString) (completed : List JSNumber) :
    stringifyDailyRecord date completed ≠ [] := by
  have h2 := stringifyDailyRecord_shape date completed []
  rw [List.append_nil] at h2
  rw [h2]
  simp

/-! ## The fuel of `JSON.parse` is enough -/

theorem skipWs_length (cs : JSString) : (skipWs cs).length ≤ cs.length := by
  induction cs with
  | nil => simp [skipWs]
  | cons c tl ih =>
    simp only [skipWs]
    split
    · simp only [List.length_cons]; omega
    · exact Nat.le_refl _

theorem skipWs_eq_cons_length (cs r : JSString) (c : Nat) (h : skipWs cs = c :: r) :
    r.length < cs.length := by
  have := skipWs_length cs
  rw [h] at this
  simp only [List.length_cons] at this
  omega

theorem takeDigits_length (cs : JSString) : (takeDigits cs).2.length ≤ cs.length := by
  induction cs with
  | nil => simp [takeDigits]
  | cons c tl ih =>
    simp only [takeDigits]
    split
    · simp only [List.length_cons]; omega
    · exact Nat.le_refl _

theorem parseStringBody_length : ∀ (n : Nat) (cs s r : JSString), cs.length ≤ n →
    parseStringBody cs = some (s, r) → r.length < cs.length := by
  intro n
  induction n with
  | zero =>
    intro cs s r hn h
    cases cs with
    | nil => rw [parseStringBody.eq_def] at h; simp at h
    | cons c tl => simp at hn
  | succ n ih =>
    intro cs s r hn h
    rw [parseStringBody.eq_def] at h
    cases cs with
    | nil => simp at h
    | cons c rest =>
      simp only [List.length_cons] at hn ⊢
      simp only at h
      split at h
      · injection h with h; injection h with h1 h2; subst h2; omega
      · split at h
        · split at h
          · cases h
          · rename_i e rest1
            simp only [List.length_cons] at hn ⊢
            split at h
            · split at h
              · rename_i h1 h2 h3 h4 rest2
                simp only [List.length_cons] at hn ⊢
                split at h
                · split at h
                  · rename_i s1 r1 hrec
                    injection h with h; injection h with _ h2; subst h2
                    have := ih rest2 s1 r1 (by omega) hrec
                    omega
                  · cases h
                · cases h
              · cases h
            · split at h
              · split at h
                · rename_i s1 r1 hrec
                  injection h with h; injection h with _ h2; subst h2
                  have := ih rest1 s1 r1 (by omega) hrec
                  omega
                · cases h
              · cases h
        · split at h
          · cases h
          · split at h
            · rename_i s1 r1 hrec
              injection h with h; injection h with _ h2; subst h2
              have := ih rest s1 r1 (by omega) hrec
              omega
            · cases h

theorem parseIntPart_length (cs r : JSString) (ds : List Nat)
    (h : parseIntPart cs = some (ds, r)) : r.length < cs.length := by
  cases cs with
  | nil => simp [parseIntPart] at h
  | cons d tl =>
    simp only [parseIntPart] at h
    have := takeDigits_length tl
    split at h
    · injection h with h; injection h with _ h2; subst h2; simp
    · split at h
      · injection h with h; injection h with _ h2; subst h2
        simp only [List.length_cons]; omega
      · cases h

theorem parseFraction_length (cs r : JSString) (ds : List Nat)
    (h : parseFraction cs = some (ds, r)) : r.length ≤ cs.length := by
  cases cs with
  | nil => simp [parseFraction] at h; rw [h.2]
  | cons d tl =>
    simp only [parseFraction] at h
    have := takeDigits_length tl
    split at h
    · split at h
      · cases h
      · injection h with h
        rw [h] at this
        simp only [List.length_cons]
        simp only at this
        omega
    · injection h with h; injection h with _ h2; subst h2; exact Nat.le_refl _

theorem parseExponent_length (cs r : JSString) (ex : Int)
    (h : parseExponent cs = some (ex, r)) : r.length ≤ cs.length := by
  cases cs with
  | nil => simp [parseExponent] at h; rw [h.2]
  | cons d tl =>
    rw [parseExponent.eq_def] at h
    simp only at h
    split at h
    · split at h
      · rename_i r1
        have := takeDigits_length r1
        split at h
        · cases h
        · injection h with h; injection h with _ h2; subst h2
          simp only [List.length_cons]; omega
      · rename_i r1
        have := takeDigits_length r1
        split at h
        · cases h
        · injection h with h; injection h with _ h2; subst h2
          simp only [List.length_cons]; omega
      · have := takeDigits_length tl
        split at h
        · cases h
        · injection h with h; injection h with _ h2; subst h2
          simp only [List.length_cons]; omega
    · injection h with h; injection h with _ h2; subst h2; exact Nat.le_refl _

theorem parseUnsigned_length (neg : Bool) (cs r : JSString) (v : JSON)
    (h : parseUnsigned neg cs = some (v, r)) : r.length < cs.length := by
  unfold parseUnsigned at h
  split at h
  · cases h
  · rename_i ip cs2 h1
    split at h
    · cases h
    · rename_i fs cs3 h2
      split at h
      · cases h
      · rename_i ex cs4 h3
        injection h with h; injection h with _ h4; subst h4
        have := parseIntPart_length _ _ _ h1
        have := parseFraction_length _ _ _ h2
        have := parseExponent_length _ _ _ h3
        omega

theorem parseNumber_length (cs r : JSString) (v : JSON)
    (h : parseNumber cs = some (v, r)) : r.length < cs.length := by
  cases cs with
  | nil => simp [parseNumber] at h
  | cons c tl =>
    simp only [parseNumber] at h
    split at h
    · have := parseUnsigned_length _ _ _ _ h
      simp only [List.length_cons]; omega
    · exact parseUnsigned_length _ _ _ _ h


theorem parseElements_length (pv : JSString → Option (JSON × JSString))
    (hpv : ∀ cs v r, pv cs = some (v, r) → r.length < cs.length) :
    ∀ (n : Nat) (cs r : JSString) (vs : List JSON),
      parseElements pv n cs = some (vs, r) → r.length < cs.length := by
  intro n
  induction n with
  | zero => intro cs r vs h; simp [parseElements] at h
  | succ n ih =>
    intro cs r vs h
    simp only [parseElements] at h
    split at h
    · cases h
    · rename_i v rest h1
      have l1 := hpv _ _ _ h1
      split at h
      · rename_i c r1 h2
        have l2 := skipWs_eq_cons_length _ _ _ h2
        split at h
        · split at h
          · rename_i vs1 r2 h3
            injection h with h; injection h with _ h4; subst h4
            have := ih _ _ _ h3
            omega
          · cases h
        · split at h
          · injection h with h; injection h with _ h4; subst h4; omega
          · cases h
      · cases h

theorem parseMembers_length (pv : JSString → Option (JSON × JSString))
    (hpv : ∀ cs v r, pv cs = some (v, r) → r.length < cs.length) :
    ∀ (n : Nat) (cs r : JSString) (ms : List (JSString × JSON)),
      parseMembers pv n cs = some (ms, r) → r.length < cs.length := by
  intro n
  induction n with
  | zero => intro cs r ms h; simp [parseMembers] at h
  | succ n ih =>
    intro cs r ms h
    simp only [parseMembers] at h
    split at h
    · cases h
    · rename_i q r0 h0
      have l0 := skipWs_eq_cons_length _ _ _ h0
      split at h
      · split at h
        · cases h
        · rename_i k r1 h1
          have l1 := parseStringBody_length _ _ _ _ (Nat.le_refl _) h1
          split at h
          · cases h
          · rename_i c r2 h2
            have l2 := skipWs_eq_cons_length _ _ _ h2
            split at h
            · split at h
              · cases h
              · rename_i v r3 h3
                have l3 := hpv _ _ _ h3
                split at h
                · cases h
                · rename_i c1 r4 h4
                  have l4 := skipWs_eq_cons_length _ _ _ h4
                  split at h
                  · split at h
                    · rename_i ms1 r5 h5
                      injection h with h; injection h with _ h6; subst h6
                      have := ih _ _ _ h5
                      omega
                    · cases h
                  · split at h
                    · injection h with h; injection h with _ h6; subst h6; omega
                    · cases h
            · cases h
      · cases h

/-- A value read leaves less text than it was given. -/
theorem parseValue_length : ∀ (f : Nat) (cs r : JSString) (v : JSON),
    parseValue f cs = some (v, r) → r.length < cs.length := by
  intro f
  induction f with
  | zero => intro cs r v h; simp [parseValue] at h
  | succ f ih =>
    intro cs r v h
    rw [parseValue] at h
    split at h
    · cases h
    · rename_i c r0 h0
      have l0 := skipWs_eq_cons_length _ _ _ h0
      have l00 := skipWs_length cs
      rw [h0] at l00
      split at h
      · split at h
        · cases h
        · rename_i c1 r1 h1
          have l1 := skipWs_eq_cons_length _ _ _ h1
          have l11 := skipWs_length r0
          rw [h1] at l11
          split at h
          · injection h with h; injection h with _ h6; subst h6; omega
          · split at h
            · rename_i ms r2 h2
              injection h with h; injection h with _ h6; subst h6
              have := parseMembers_length _ (fun cs v r => ih cs r v) _ _ _ _ h2
              omega
            · cases h
      · split at h
        · split at h
          · cases h
          · rename_i c1 r1 h1
            have l1 := skipWs_eq_cons_length _ _ _ h1
            have l11 := skipWs_length r0
            rw [h1] at l11
            split at h
            · injection h with h; injection h with _ h6; subst h6; omega
            · split at h
              · rename_i vs r2 h2
                injection h with h; injection h with _ h6; subst h6
                have := parseElements_length _ (fun cs v r => ih cs r v) _ _ _ _ h2
                omega
              · cases h
        · split at h
          · split at h
            · rename_i s r1 h1
              injection h with h; injection h with _ h6; subst h6
              have := parseStringBody_length _ _ _ _ (Nat.le_refl _) h1
              omega
            · cases h
          · split at h
            · split at h
              · injection h with h; injection h with _ h6; subst h6
                simp only [List.length_cons] at l0 ⊢; omega
              · cases h
            · split at h
              · split at h
                · injection h with h; injection h with _ h6; subst h6
                  simp only [List.length_cons] at l0 ⊢; omega
                · cases h
              · split at h
                · split at h
                  · injection h with h; injection h with _ h6; subst h6
                    simp only [List.length_cons] at l0 ⊢; omega
                  · cases h
                · have := parseNumber_length _ _ _ h
                  omega


theorem parseElements_agree (pv1 pv2 : JSString → Option (JSON × JSString)) (L : Nat)
    (hag : ∀ xs, xs.length < L → pv1 xs = pv2 xs)
    (hc : ∀ cs v r, pv2 cs = some (v, r) → r.length < cs.length) :
    ∀ (n1 n2 : Nat) (cs : JSString), cs.length < L → cs.length < n1 → cs.length < n2 →
      parseElements pv1 n1 cs = parseElements pv2 n2 cs := by
  intro n1
  induction n1 with
  | zero => intro n2 cs _ h1 _; omega
  | succ n1 ih =>
    intro n2 cs hL h1 h2
    cases n2 with
    | zero => omega
    | succ n2 =>
      simp only [parseElements]
      rw [hag cs hL]
      cases hv : pv2 cs with
      | none => rfl
      | some p =>
        obtain ⟨v, rest⟩ := p
        have l1 := hc _ _ _ hv
        simp only
        cases hs : skipWs rest with
        | nil => rfl
        | cons c r =>
          have l2 := skipWs_eq_cons_length _ _ _ hs
          simp only
          by_cases h44 : c = 44
          · simp only [h44, if_true]
            rw [ih n2 r (by omega) (by omega) (by omega)]
          · simp only [h44, if_false]

theorem parseMembers_agree (pv1 pv2 : JSString → Option (JSON × JSString)) (L : Nat)
    (hag : ∀ xs, xs.length < L → pv1 xs = pv2 xs)
    (hc : ∀ cs v r, pv2 cs = some (v, r) → r.length < cs.length) :
    ∀ (n1 n2 : Nat) (cs : JSString), cs.length < L → cs.length < n1 → cs.length < n2 →
      parseMembers pv1 n1 cs = parseMembers pv2 n2 cs := by
  intro n1
  induction n1 with
  | zero => intro n2 cs _ h1 _; omega
  | succ n1 ih =>
    intro n2 cs hL h1 h2
    cases n2 with
    | zero => omega
    | succ n2 =>
      simp only [parseMembers]
      cases h0 : skipWs cs with
      | nil => rfl
      | cons q r0 =>
        have l0 := skipWs_eq_cons_length _ _ _ h0
        simp only
        by_cases hq : q = 34
        · simp only [hq, if_true]
          cases hk : parseStringBody r0 with
          | none => rfl
          | some p =>
            obtain ⟨k, r1⟩ := p
            have l1 := parseStringBody_length _ _ _ _ (Nat.le_refl _) hk
            simp only
            cases h2 : skipWs r1 with
            | nil => rfl
            | cons c r2 =>
              have l2 := skipWs_eq_cons_length _ _ _ h2
              simp only
              by_cases h58 : c = 58
              · simp only [h58, if_true]
                rw [hag r2 (by omega)]
                cases hv : pv2 r2 with
                | none => rfl
                | some p2 =>
                  obtain ⟨v, r3⟩ := p2
                  have l3 := hc _ _ _ hv
                  simp only
                  cases h4 : skipWs r3 with
                  | nil => rfl
                  | cons c1 r4 =>
                    have l4 := skipWs_eq_cons_length _ _ _ h4
                    simp only
                    by_cases h44 : c1 = 44
                    · simp only [h44, if_true]
                      rw [ih n2 r4 (by omega) (by omega) (by omega)]
                    · simp only [h44, if_false]
              · simp only [h58, if_false]
        · simp only [hq, if_false]

/-- More fuel than the length of the text changes nothing: the value read is the same
for every larger fuel. -/
theorem parseValue_fuel : ∀ (f : Nat) (cs : JSString) (g : Nat), cs.length < f → f ≤ g →
    parseValue g cs = parseValue f cs := by
  intro f
  induction f with
  | zero => intro cs g h _; omega
  | succ f ih =>
    intro cs g hcs hg
    obtain ⟨g1, rfl⟩ : ∃ g1, g = g1 + 1 := ⟨g - 1, by omega⟩
    have hag : ∀ xs : JSString, xs.length < f → parseValue g1 xs = parseValue f xs :=
      fun xs hxs => ih xs g1 hxs (by omega)
    have hc : ∀ (cs r : JSString) (v : JSON), parseValue f cs = some (v, r) →
        r.length < cs.length := parseValue_length f
    rw [parseValue, parseValue]
    cases h0 : skipWs cs with
    | nil => rfl
    | cons c r0 =>
      have l0 := skipWs_eq_cons_length _ _ _ h0
      simp only
      by_cases h123 : c = 123
      · simp only [h123, if_true]
        cases h1 : skipWs r0 with
        | nil => rfl
        | cons c1 r1 =>
          have l1 := skipWs_length r0
          rw [h1] at l1
          simp only
          by_cases h125 : c1 = 125
          · simp only [h125, if_true]
          · simp only [h125, if_false]
            rw [parseMembers_agree (fun t => parseValue g1 t) (fun t => parseValue f t) f hag
              (fun cs v r => hc cs r v) g1 f (c1 :: r1) (by omega) (by omega) (by omega)]
      · simp only [h123, if_false]
        by_cases h91 : c = 91
        · simp only [h91, if_true]
          cases h1 : skipWs r0 with
          | nil => rfl
          | cons c1 r1 =>
            have l1 := skipWs_length r0
            rw [h1] at l1
            simp only
            by_cases h93 : c1 = 93
            · simp only [h93, if_true]
            · simp only [h93, if_false]
              rw [parseElements_agree (fun t => parseValue g1 t) (fun t => parseValue f t) f hag
                (fun cs v r => hc cs r v) g1 f (c1 :: r1) (by omega) (by omega) (by omega)]
        · simp only [h91, if_false]

/-- The fuel `JSON.parse` gives is enough: on every text, every larger fuel reads the
same value or fails the same way. -/
theorem parseValue_fuel_enough (s : JSString) (g : Nat) (h : s.length + 1 ≤ g) :
    parseValue g s = parseValue (s.length + 1) s :=
  parseValue_fuel (s.length + 1) s g (Nat.lt_succ_self _) h

/-! ## The load effect -/

theorem mem_foldl_setAdd_num (xs : List Int) : ∀ (acc : List Int),
    (∀ k, JSON.num k ∈ (xs.map JSON.num).foldl setAdd (acc.map JSON.num) ↔ k ∈ acc ∨ k ∈ xs) ∧
    (acc.Nodup → ∃ l : List Int, l.Nodup ∧
      (xs.map JSON.num).foldl setAdd (acc.map JSON.num) = l.map JSON.num) ∧
    ((acc ++ xs).Nodup →
      (xs.map JSON.num).foldl setAdd (acc.map JSON.num) = (acc ++ xs).map JSON.num) := by
  induction xs with
  | nil =>
    intro acc
    refine ⟨by simp, fun h => ⟨acc, h, rfl⟩, by simp⟩
  | cons a tl ih =>
    intro acc
    have hany : (acc.map JSON.num).any (fun x => sameValueZero x (JSON.num a)) = decide (a ∈ acc) := by
      rw [Bool.eq_iff_iff]
      simp [sameValueZero]
    by_cases ha : a ∈ acc
    · have e : setAdd (acc.map JSON.num) (JSON.num a) = acc.map JSON.num := by
        simp [setAdd, hany, ha]
      simp only [List.map_cons, List.foldl_cons, e]
      obtain ⟨h1, h2, h3⟩ := ih acc
      refine ⟨?_, h2, ?_⟩
      · intro k
        rw [h1 k]
        constructor
        · rintro (h | h)
          · exact Or.inl h
          · exact Or.inr (List.mem_cons_of_mem a h)
        · rintro (h | h)
          · exact Or.inl h
          · rcases List.mem_cons.1 h with h | h
            · exact Or.inl (h ▸ ha)
            · exact Or.inr h
      · intro hn
        exfalso
        rw [List.nodup_append] at hn
        exact hn.2.2 ha (List.mem_cons_self a tl)
    · have e : setAdd (acc.map JSON.num) (JSON.num a) = (acc ++ [a]).map JSON.num := by
        simp [setAdd, hany, ha]
      simp only [List.map_cons, List.foldl_cons, e]
      obtain ⟨h1, h2, h3⟩ := ih (acc ++ [a])
      refine ⟨?_, ?_, ?_⟩
      · intro k
        rw [h1 k]
        simp only [List.mem_append, List.mem_singleton, List.mem_cons]
        tauto
      · intro hn
        apply h2
        rw [List.nodup_append]
        refine ⟨hn, List.nodup_singleton a, ?_⟩
        intro x hx hx2
        rw [List.mem_singleton] at hx2
        exact ha (hx2 ▸ hx)
      · intro hn
        have := h3 (by simpa using hn)
        simpa using this

theorem newSet_ids (ids : List Int) :
    ∃ l : List Int, l.Nodup ∧ (∀ k, k ∈ l ↔ k ∈ ids) ∧ (ids.Nodup → l = ids) ∧
      newSet (some (JSON.arr (ids.map JSON.num))) = Except.ok (l.map JSON.num) := by
  obtain ⟨h1, h2, h3⟩ := mem_foldl_setAdd_num ids []
  obtain ⟨l, hl, e⟩ := h2 List.nodup_nil
  have e0 : newSet (some (JSON.arr (ids.map JSON.num))) =
      Except.ok ((ids.map JSON.num).foldl setAdd []) := rfl
  have hinj : Function.Injective JSON.num := fun a b h => by injection h
  refine ⟨l, hl, ?_, ?_, ?_⟩
  · intro k
    have := h1 k
    simp only [List.map_nil] at this e
    rw [e, List.mem_map_of_injective hinj] at this
    simpa using this
  · intro hn
    have := h3 (by simpa using hn)
    simp only [List.map_nil, List.nil_append] at this e
    rw [e] at this
    exact List.map_injective_iff.2 hinj this
  · rw [e0]
    simp only [List.map_nil] at e
    rw [e]

/-- The first `try` of the load effect never throws, leaves the completed set and the
storage as they were, gives `tasks` the parsed value of a stored text that parses, and
leaves it empty when the text fails to parse. -/
theorem tryCatch_loadTasksBlock (ls : Storage) :
    ∃ w, tryCatch loadTasksBlock (mount ls) = Except.ok w ∧
      w.completedTasks = [] ∧ w.storage = ls ∧
      (∀ t tv, ls.regularChecksTasks = some t → t ≠ [] → JSON.parse t = Except.ok tv →
        w.tasks = tv ∧ w.consoleErrors = 0) ∧
      (∀ t e, ls.regularChecksTasks = some t → JSON.parse t = Except.error e →
        w.tasks = JSON.arr []) ∧
      (ls.regularChecksTasks = none → w.tasks = JSON.arr []) := by
  unfold tryCatch loadTasksBlock
  cases h : ls.regularChecksTasks with
  | none => exact ⟨mount ls, by simp [mount, h], rfl, rfl, by simp, by simp, fun _ => rfl⟩
  | some t =>
    by_cases ht : t = []
    · refine ⟨mount ls, by simp [mount, h, ht], rfl, rfl, ?_, ?_, by simp⟩
      · intro t1 tv h1 h2; simp at h1; subst h1; exact absurd ht h2
      · intro _ _ _ _; rfl
    · cases hp : JSON.parse t with
      | error e =>
        refine ⟨{ mount ls with consoleErrors := 1 }, by simp [mount, h, ht, hp], rfl, rfl,
          ?_, ?_, by simp⟩
        · intro t1 tv h1 _ h3; simp at h1; subst h1; rw [hp] at h3; cases h3
        · intro _ _ _ _; rfl
      | ok v =>
        refine ⟨{ mount ls with tasks := v }, by simp [mount, h, ht, hp], rfl, rfl, ?_, ?_,
          by simp⟩
        · intro t1 tv h1 _ h3; simp at h1; subst h1; rw [hp] at h3; cases h3; exact ⟨rfl, rfl⟩
        · intro t1 e h1 h3; simp at h1; subst h1; rw [hp] at h3; cases h3

theorem tryCatch_returns (body : Loaded → Except JSError Loaded) (w : Loaded) :
    ∃ w1, tryCatch body w = Except.ok w1 := by
  unfold tryCatch
  split
  · exact ⟨_, rfl⟩
  · exact ⟨_, rfl⟩

/-- The load effect returns, with `isLoaded` set. -/
theorem loadEffect_returns (today : JSString) (ls : Storage) :
    ∃ w, loadEffect today ls = Except.ok w ∧ w.isLoaded = true := by
  unfold loadEffect
  obtain ⟨w1, h1⟩ := tryCatch_returns loadTasksBlock (mount ls)
  obtain ⟨w2, h2⟩ := tryCatch_returns (loadCompletionBlock today) w1
  rw [h1]
  simp only
  rw [h2]
  exact ⟨_, rfl, rfl⟩

theorem strictEqualsString_iff (date : Option JSON) (today : JSString) :
    strictEqualsString date today = true ↔ date = some (JSON.str today) := by
  unfold strictEqualsString
  split
  · rename_i d
    simp
  · rename_i h
    constructor
    · intro h1; cases h1
    · intro h1; exact absurd h1 (h today)

/-- The second `try` of the load effect on a stored record whose date is not today's:
the completed set stays as it was and the stored record is rewritten. -/
theorem loadCompletionBlock_reset (today : JSString) (w : Loaded) (s : JSString)
    (props : List (JSString × JSON))
    (hs : w.storage.dailyChecks = some s) (hne : s ≠ [])
    (hp : JSON.parse s = Except.ok (JSON.obj props))
    (hd : getProp props (utf16 "date") ≠ some (JSON.str today)) :
    tryCatch (loadCompletionBlock today) w = Except.ok { w with
      storage := { w.storage with dailyChecks := some (stringifyDaily today []) } } := by
  have h1 : strictEqualsString (getProp props (utf16 "date")) today = false := by
    rw [← Bool.not_eq_true, strictEqualsString_iff]
    exact hd
  simp [tryCatch, loadCompletionBlock, hs, hne, hp, destructure, h1]

/-- The second `try` of the load effect on a stored record of today. -/
theorem loadCompletionBlock_today (today : JSString) (w : Loaded) (s : JSString)
    (props : List (JSString × JSON)) (completed : List JSON)
    (hs : w.storage.dailyChecks = some s) (hne : s ≠ [])
    (hp : JSON.parse s = Except.ok (JSON.obj props))
    (hd : getProp props (utf16 "date") = some (JSON.str today))
    (hc : newSet (getProp props (utf16 "completed")) = Except.ok completed) :
    tryCatch (loadCompletionBlock today) w =
      Except.ok { w with completedTasks := completed } := by
  have h1 : strictEqualsString (getProp props (utf16 "date")) today = true := by
    rw [strictEqualsString_iff]
    exact hd
  simp [tryCatch, loadCompletionBlock, hs, hne, hp, destructure, h1, hc]

/-- The load effect on a stored daily record of today whose `completed` is an array of
ids: the completed set has those ids as members, each once, and the storage is not
written. -/
theorem loadEffect_record_today (today : JSString) (ls : Storage) (s : JSString)
    (props : List (JSString × JSON)) (ids : List Int)
    (hs : ls.dailyChecks = some s) (hne : s ≠ [])
    (hp : JSON.parse s = Except.ok (JSON.obj props))
    (hd : getProp props (utf16 "date") = some (JSON.str today))
    (hc : getProp props (utf16 "completed") = some (JSON.arr (ids.map JSON.num))) :
    ∃ w, loadEffect today ls = Except.ok w ∧
      (∀ k, JSON.num k ∈ w.completedTasks ↔ k ∈ ids) ∧
      (∀ x ∈ w.completedTasks, ∃ k ∈ ids, x = JSON.num k) ∧
      w.completedTasks.Nodup ∧
      w.storage = ls ∧
      (∀ t tv, ls.regularChecksTasks = some t → t ≠ [] → JSON.parse t = Except.ok tv →
        w.tasks = tv) := by
  obtain ⟨w1, h1, h2, h3, h4, _⟩ := tryCatch_loadTasksBlock ls
  have hs1 : w1.storage.dailyChecks = some s := by rw [h3]; exact hs
  obtain ⟨l, hl, hmem, _, hset⟩ := newSet_ids ids
  rw [← hc] at hset
  have hinj : Function.Injective JSON.num := fun a b h => by injection h
  have e : loadEffect today ls = Except.ok { w1 with
      completedTasks := l.map JSON.num, isLoaded := true } := by
    unfold loadEffect
    rw [h1]
    simp only
    rw [loadCompletionBlock_today today w1 s props _ hs1 hne hp hd hset]
  refine ⟨_, e, ?_, ?_, ?_, ?_, ?_⟩
  · intro k
    simp only
    rw [List.mem_map_of_injective hinj]
    exact hmem k
  · intro x hx
    simp only at hx
    obtain ⟨k, hk, rfl⟩ := List.mem_map.1 hx
    exact ⟨k, (hmem k).1 hk, rfl⟩
  · exact hl.map hinj
  · exact h3
  · intro t tv ht hn hpt
    exact (h4 t tv ht hn hpt).1

/-- C4. A completion record from a prior date is discarded on load: when the stored
`dailyChecks` record has a date other than today's string, the load effect leaves
the completed set empty and rewrites the stored record to `{date: today,
completed: []}`, and the stored task list is loaded all the same; when the date is
today's string and `completed` is an array of ids, the completed set has exactly
those ids as members. -/
theorem loadEffect_daily_record (today : JSString) (ls : Storage) (s : JSString)
    (props : List (JSString × JSON))
    (hs : ls.dailyChecks = some s) (hne : s ≠ [])
    (hp : JSON.parse s = Except.ok (JSON.obj props)) :
    (getProp props (utf16 "date") ≠ some (JSON.str today) →
      ∃ w, loadEffect today ls = Except.ok w ∧ w.completedTasks = [] ∧
        w.storage.dailyChecks = some (stringifyDaily today []) ∧
        w.storage.regularChecksTasks = ls.regularChecksTasks ∧
        (∀ t tv, ls.regularChecksTasks = some t → t ≠ [] → JSON.parse t = Except.ok tv →
          w.tasks = tv)) ∧
    (getProp props (utf16 "date") = some (JSON.str today) →
      ∀ ids : List Int,
        getProp props (utf16 "completed") = some (JSON.arr (ids.map JSON.num)) →
        ∃ w, loadEffect today ls = Except.ok w ∧
          (∀ k, JSON.num k ∈ w.completedTasks ↔ k ∈ ids) ∧
          (∀ x ∈ w.completedTasks, ∃ k ∈ ids, x = JSON.num k) ∧
          w.completedTasks.Nodup ∧
          w.storage = ls ∧
          (∀ t tv, ls.regularChecksTasks = some t → t ≠ [] → JSON.parse t = Except.ok tv →
            w.tasks = tv)) := by
  constructor
  · intro hd
    obtain ⟨w1, h1, h2, h3, h4, _⟩ := tryCatch_loadTasksBlock ls
    have hs1 : w1.storage.dailyChecks = some s := by rw [h3]; exact hs
    have e : loadEffect today ls = Except.ok { w1 with
        storage := { w1.storage with dailyChecks := some (stringifyDaily today []) }
        isLoaded := true } := by
      unfold loadEffect
      rw [h1]
      simp only
      rw [loadCompletionBlock_reset today w1 s props hs1 hne hp hd]
    refine ⟨_, e, h2, rfl, ?_, ?_⟩
    · simp only [h3]
    · intro t tv ht hn hpt
      exact (h4 t tv ht hn hpt).1
  · intro hd ids hc
    exact loadEffect_record_today today ls s props ids hs hne hp hd hc

theorem loadEffect_daily_record_witness :
    (∃ w, loadEffect (utf16 "2025-09-16")
        ⟨some (utf16 "[\x7b\"id\":5,\"text\":\"water\"\x7d]"),
          some (utf16 "\x7b\"date\":\"2025-09-15\",\"completed\":[5]\x7d")⟩ = Except.ok w ∧
      w.completedTasks = [] ∧
      w.storage.dailyChecks = some (utf16 "\x7b\"date\":\"2025-09-16\",\"completed\":[]\x7d")) :=
  have h := (loadEffect_daily_record (utf16 "2025-09-16")
    ⟨some (utf16 "[\x7b\"id\":5,\"text\":\"water\"\x7d]"),
      some (utf16 "\x7b\"date\":\"2025-09-15\",\"completed\":[5]\x7d")⟩
    (utf16 "\x7b\"date\":\"2025-09-15\",\"completed\":[5]\x7d")
    [(utf16 "date", JSON.str (utf16 "2025-09-15")), (utf16 "completed", JSON.arr [JSON.num 5])]
    rfl (by decide) rfl).1 (by
      intro h
      have h1 : (utf16 "2025-09-15") = (utf16 "2025-09-16") := by
        injection h with h
        injection h
      exact absurd h1 (by decide))
  match h with
  | ⟨w, h1, h2, h3, _⟩ => ⟨w, h1, h2, h3⟩

/-- The second `try` of the load effect leaves the completed set empty when the stored
text fails to parse or parses to a value that lacks `date` or `completed`. -/
theorem loadCompletionBlock_malformed (today : JSString) (w : Loaded) (s : JSString)
    (hw : w.completedTasks = [])
    (hs : w.storage.dailyChecks = some s)
    (h : (∃ e, JSON.parse s = Except.error e) ∨
      (∃ v, JSON.parse s = Except.ok v ∧
        (hasField v (utf16 "date") = false ∨ hasField v (utf16 "completed") = false))) :
    ∃ w1, tryCatch (loadCompletionBlock today) w = Except.ok w1 ∧ w1.completedTasks = [] ∧
      w1.tasks = w.tasks := by
  unfold tryCatch loadCompletionBlock
  rw [hs]
  by_cases hne : s = []
  · simp only [hne, if_true]
    exact ⟨_, rfl, hw, rfl⟩
  · rcases h with ⟨e, he⟩ | ⟨v, hv, hf⟩
    · simp only [hne, if_false, he]
      exact ⟨_, rfl, hw, rfl⟩
    · simp only [hne, if_false, hv]
      cases v with
      | null => exact ⟨_, rfl, hw, rfl⟩
      | obj props =>
        simp only [destructure]
        cases hd : strictEqualsString (getProp props (utf16 "date")) today with
        | false =>
          simp only [Bool.false_eq_true, if_false]
          exact ⟨_, rfl, hw, rfl⟩
        | true =>
          rw [strictEqualsString_iff] at hd
          have hc : getProp props (utf16 "completed") = none := by
            rcases hf with hf | hf
            · simp [hasField, hd] at hf
            · simpa [hasField] using hf
          simp only [if_true, hc, newSet]
          exact ⟨_, rfl, rfl, rfl⟩
      | bool b =>
        simp only [destructure, strictEqualsString, Bool.false_eq_true, if_false]
        exact ⟨_, rfl, hw, rfl⟩
      | num n =>
        simp only [destructure, strictEqualsString, Bool.false_eq_true, if_false]
        exact ⟨_, rfl, hw, rfl⟩
      | frac m e =>
        simp only [destructure, strictEqualsString, Bool.false_eq_true, if_false]
        exact ⟨_, rfl, hw, rfl⟩
      | inf b =>
        simp only [destructure, strictEqualsString, Bool.false_eq_true, if_false]
        exact ⟨_, rfl, hw, rfl⟩
      | str s =>
        simp only [destructure, strictEqualsString, Bool.false_eq_true, if_false]
        exact ⟨_, rfl, hw, rfl⟩
      | arr items =>
        simp only [destructure, strictEqualsString, Bool.false_eq_true, if_false]
        exact ⟨_, rfl, hw, rfl⟩

theorem loadCompletionBlock_tasks (today : JSString) (w w1 : Loaded)
    (h : loadCompletionBlock today w = Except.ok w1) : w1.tasks = w.tasks := by
  unfold loadCompletionBlock at h
  repeat' split at h
  all_goals first
    | (injection h with h; subst h; rfl)
    | cases h

theorem tryCatch_loadCompletionBlock_tasks (today : JSString) (w w1 : Loaded)
    (h : tryCatch (loadCompletionBlock today) w = Except.ok w1) : w1.tasks = w.tasks := by
  unfold tryCatch at h
  split at h
  · rename_i w2 h2
    injection h with h
    subst h
    exact loadCompletionBlock_tasks today w _ h2
  · injection h with h
    subst h
    rfl

/-- C5. Malformed persisted JSON is caught and the widget falls back to empty state:
the load effect never throws and always sets `isLoaded`; a text under
`regularChecksTasks` that fails to parse leaves the task list empty; a text under
`dailyChecks` that fails to parse, or parses to a value without a `date` or without
a `completed` field, leaves the completed set empty; and a failure of either record
does not keep the other from loading (a task text that parses is loaded whatever
the daily record is, a daily record of today is loaded whatever the task text
is). -/
theorem loadEffect_malformed (today : JSString) (ls : Storage) :
    ∃ w, loadEffect today ls = Except.ok w ∧ w.isLoaded = true ∧
      (∀ t e, ls.regularChecksTasks = some t → JSON.parse t = Except.error e →
        w.tasks = JSON.arr []) ∧
      (∀ s e, ls.dailyChecks = some s → JSON.parse s = Except.error e →
        w.completedTasks = []) ∧
      (∀ s v, ls.dailyChecks = some s → JSON.parse s = Except.ok v →
        hasField v (utf16 "date") = false ∨ hasField v (utf16 "completed") = false →
        w.completedTasks = []) ∧
      (∀ t tv, ls.regularChecksTasks = some t → t ≠ [] → JSON.parse t = Except.ok tv →
        w.tasks = tv) ∧
      (∀ s props (ids : List Int), ls.dailyChecks = some s → s ≠ [] →
        JSON.parse s = Except.ok (JSON.obj props) →
        getProp props (utf16 "date") = some (JSON.str today) →
        getProp props (utf16 "completed") = some (JSON.arr (ids.map JSON.num)) →
        ∀ k, JSON.num k ∈ w.completedTasks ↔ k ∈ ids) := by
  obtain ⟨w, hw, hl⟩ := loadEffect_returns today ls
  obtain ⟨w1, h1, h2, h3, h4, h5, _⟩ := tryCatch_loadTasksBlock ls
  obtain ⟨w2, hw2⟩ := tryCatch_returns (loadCompletionBlock today) w1
  have hww : w = { w2 with isLoaded := true } := by
    unfold loadEffect at hw
    rw [h1] at hw
    simp only [hw2] at hw
    injection hw with hw
    exact hw.symm
  have htasks : w2.tasks = w1.tasks := tryCatch_loadCompletionBlock_tasks today w1 w2 hw2
  have hbad : ∀ s, ls.dailyChecks = some s →
      ((∃ e, JSON.parse s = Except.error e) ∨
      (∃ v, JSON.parse s = Except.ok v ∧
        (hasField v (utf16 "date") = false ∨ hasField v (utf16 "completed") = false))) →
      w.completedTasks = [] := by
    intro s hs hbad
    obtain ⟨w3, e3, hc3, _⟩ := loadCompletionBlock_malformed today w1 s h2 (by rw [h3]; exact hs) hbad
    rw [hw2] at e3
    injection e3 with e3
    rw [hww, e3]
    exact hc3
  refine ⟨w, hw, hl, ?_, ?_, ?_, ?_, ?_⟩
  · intro t e ht hp
    rw [hww]
    simp only [htasks]
    exact h5 t e ht hp
  · intro s e hs hp
    exact hbad s hs (Or.inl ⟨e, hp⟩)
  · intro s v hs hp hf
    exact hbad s hs (Or.inr ⟨v, hp, hf⟩)
  · intro t tv ht hne hp
    rw [hww]
    simp only [htasks]
    exact (h4 t tv ht hne hp).1
  · intro s props ids hs hne hp hd hc
    obtain ⟨w4, e4, hm, _⟩ := loadEffect_record_today today ls s props ids hs hne hp hd hc
    rw [hw] at e4
    injection e4 with e4
    rw [e4]
    exact hm

theorem loadEffect_malformed_witness :
    ∃ w, loadEffect (utf16 "2025-09-16") brokenStorage = Except.ok w ∧ w.isLoaded = true ∧
      w.tasks = JSON.arr [] ∧ w.completedTasks = [] :=
  match loadEffect_malformed (utf16 "2025-09-16") brokenStorage with
  | ⟨w, h1, h2, h3, _, h5, _⟩ =>
    ⟨w, h1, h2, h3 (utf16 "[\x7b\"id\":5,") JSError.syntaxError rfl rfl,
      h5 (utf16 "[1, 2]") (JSON.arr [JSON.num 1, JSON.num 2]) rfl rfl (Or.inl rfl)⟩

theorem numberToJSON_injective : Function.Injective JSNumber.toJSON := by
  intro a b h
  cases a <;> cases b <;> simp_all [JSNumber.toJSON]

theorem taskToJSON_injective : Function.Injective NumericTask.toJSON := by
  intro a b h
  simp only [NumericTask.toJSON, JSON.obj.injEq, List.cons.injEq, Prod.mk.injEq,
    JSON.str.injEq, true_and, and_true] at h
  cases a; cases b
  simp only [NumericTask.mk.injEq]
  exact ⟨numberToJSON_injective h.1, h.2⟩

theorem sameValueZero_toJSON (a b : JSNumber) :
    sameValueZero a.toJSON b.toJSON = decide (a = b) := by
  rw [Bool.eq_iff_iff]
  cases a <;> cases b <;> simp [sameValueZero, JSNumber.toJSON]

/-- The call `new Set(array)` on an array of Numbers that lists each once gives the
members in the order of the array. -/
theorem foldl_setAdd_numbers (xs : List JSNumber) : ∀ acc : List JSNumber,
    (acc ++ xs).Nodup →
    (xs.map JSNumber.toJSON).foldl setAdd (acc.map JSNumber.toJSON) =
      (acc ++ xs).map JSNumber.toJSON := by
  induction xs with
  | nil => intro acc _; simp
  | cons a tl ih =>
    intro acc hn
    have ha : a ∉ acc := by
      intro hmem
      rw [List.nodup_append] at hn
      exact hn.2.2 hmem (List.mem_cons_self a tl)
    have hany : (acc.map JSNumber.toJSON).any (fun x => sameValueZero x a.toJSON) = false := by
      rw [Bool.eq_false_iff]
      intro hcon
      rw [List.any_eq_true] at hcon
      obtain ⟨x, hx, hx2⟩ := hcon
      obtain ⟨y, hy, rfl⟩ := List.mem_map.1 hx
      rw [sameValueZero_toJSON, decide_eq_true_eq] at hx2
      exact ha (hx2 ▸ hy)
    have e : setAdd (acc.map JSNumber.toJSON) a.toJSON = (acc ++ [a]).map JSNumber.toJSON := by
      simp [setAdd, hany]
    simp only [List.map_cons, List.foldl_cons, e]
    have := ih (acc ++ [a]) (by simpa using hn)
    simpa using this

/-- An integer of magnitude below `2 ^ 53` is a finite Number. -/
theorem isFinite_int_of_lt (n : Int) (h : n.natAbs < 2 ^ 53) :
    (JSNumber.int n).isFinite = true := by
  have hl : log2Floor n.natAbs n.natAbs < 53 := by
    by_cases h0 : n.natAbs = 0
    · rw [h0]; decide
    · have h1 := log2Floor_le n.natAbs h0
      by_contra hcon
      have h2 : 2 ^ 53 ≤ 2 ^ log2Floor n.natAbs n.natAbs :=
        Nat.pow_le_pow_right (by decide) (by omega)
      omega
  have he : log2Floor n.natAbs n.natAbs - 52 = 0 := by omega
  simp only [JSNumber.isFinite, Bool.and_eq_true, decide_eq_true_eq, he, pow_zero,
    Nat.mod_one, and_true]
  omega

/-- The ids of a state of the widget are finite Numbers when they are below `2 ^ 53`
in magnitude, as every `Date.now()` is. -/
theorem toNumeric_isFinite (st : State) (h : ∀ t ∈ st.tasks, t.id.natAbs < 2 ^ 53) :
    ∀ t ∈ st.toNumeric.tasks, t.id.isFinite = true := by
  intro t ht
  simp only [State.toNumeric, List.mem_map] at ht
  obtain ⟨u, hu, rfl⟩ := ht
  exact isFinite_int_of_lt u.id (h u hu)

/-- C6, at an input where it fails: a task list whose one task has the id `Infinity` (the
Number that the stored text `1e400` denotes), the task being completed, is saved with
the id `null` in the task list and in the daily record, and loading the saved texts on
the same date gives a task whose id is `null` and a completed set whose member is
`null`: not the task list and not the completed set that were saved. -/
theorem loadEffect_after_save_infinite_id :
    readsAs (utf16 "1e400") (JSNumber.infinity false) = true ∧
    saveTasksEffect infiniteIdState
        (saveCompletionEffect (utf16 "2025-09-16") infiniteIdState ⟨none, none⟩) =
      ⟨some (utf16 "[\x7b\"id\":null,\"text\":\"a\"\x7d]"),
        some (utf16 "\x7b\"date\":\"2025-09-16\",\"completed\":[null]\x7d")⟩ ∧
    (∃ w, loadEffect (utf16 "2025-09-16")
        (saveTasksEffect infiniteIdState
          (saveCompletionEffect (utf16 "2025-09-16") infiniteIdState ⟨none, none⟩)) =
        Except.ok w ∧
      w.tasks = JSON.arr [JSON.obj [(utf16 "id", JSON.null), (utf16 "text", JSON.str (utf16 "a"))]] ∧
      w.tasks ≠ JSON.arr (infiniteIdState.tasks.map NumericTask.toJSON) ∧
      w.completedTasks = [JSON.null] ∧
      w.completedTasks ≠ infiniteIdState.completedTasks.map JSNumber.toJSON) := by
  refine ⟨by decide!, by decide, _, rfl, rfl, ?_, rfl, ?_⟩
  · intro h
    have h2 : JSON.arr [JSON.obj [(utf16 "id", JSON.null), (utf16 "text", JSON.str (utf16 "a"))]] =
        JSON.arr (infiniteIdState.tasks.map NumericTask.toJSON) := h
    simp [infiniteIdState, NumericTask.toJSON, JSNumber.toJSON] at h2
  · intro h
    have h2 : [JSON.null] = infiniteIdState.completedTasks.map JSNumber.toJSON := h
    simp [infiniteIdState, JSNumber.toJSON] at h2

/-- C6, amended. The checklist state is reconstructible from its serialized form when
its ids are finite Numbers: after the two save effects have run for a loaded state whose
task ids and completed members are finite (the completed `Set` listing each member
once), the load effect on the same date returns with the task list of that state, in
its order, and the completed set with its members (in their order), logs no error
and leaves the storage as saved; and no other task list and no other list of members
has those loaded values. -/
theorem loadEffect_after_save (today : JSString) (st : NumericState) (ls : Storage)
    (h : st.isLoaded = true) (hts : ∀ t ∈ st.tasks, t.id.isFinite = true)
    (hcs : ∀ k ∈ st.completedTasks, k.isFinite = true) (hset : st.completedTasks.Nodup) :
    loadEffect today (saveTasksEffect st (saveCompletionEffect today st ls)) =
      Except.ok
        { tasks := JSON.arr (st.tasks.map NumericTask.toJSON)
          completedTasks := st.completedTasks.map JSNumber.toJSON
          isLoaded := true
          storage := saveTasksEffect st (saveCompletionEffect today st ls)
          consoleErrors := 0 } ∧
    (∀ ts : List NumericTask,
      ts.map NumericTask.toJSON = st.tasks.map NumericTask.toJSON → ts = st.tasks) ∧
    (∀ c : List JSNumber,
      c.map JSNumber.toJSON = st.completedTasks.map JSNumber.toJSON → c = st.completedTasks) := by
  refine ⟨?_, fun ts hts => List.map_injective_iff.2 taskToJSON_injective hts,
    fun c hc => List.map_injective_iff.2 numberToJSON_injective hc⟩
  have hset2 : newSet (some (JSON.arr (st.completedTasks.map JSNumber.toJSON))) =
      Except.ok (st.completedTasks.map JSNumber.toJSON) := by
    have := foldl_setAdd_numbers st.completedTasks [] (by simpa using hset)
    simp only [List.map_nil, List.nil_append] at this
    simp only [newSet, this]
  have hk : utf16 "date" ≠ utf16 "completed" := by decide
  have hd : strictEqualsString (some (JSON.str today)) today = true := by
    rw [strictEqualsString_iff]
  simp only [saveTasksEffect, saveCompletionEffect, h, if_true]
  simp [loadEffect, tryCatch, loadTasksBlock, loadCompletionBlock, mount,
    parse_stringifyTasks st.tasks hts, parse_stringifyDailyRecord today st.completedTasks hcs,
    stringifyTasks_ne_nil, stringifyDailyRecord_ne_nil,
    destructure, getProp, hk, hd, hset2]

set_option maxRecDepth 20000 in
theorem loadEffect_after_save_witness :
    numericSample.isLoaded = true ∧
    (saveTasksEffect numericSample
        (saveCompletionEffect (utf16 "2025-09-16") numericSample ⟨none, none⟩)) =
      ⟨some (utf16 "[\x7b\"id\":1.5,\"text\":\"tea \\\"now\\\"\"\x7d,\x7b\"id\":1700000000000,\"text\":\"water\"\x7d]"),
        some (utf16 "\x7b\"date\":\"2025-09-16\",\"completed\":[1700000000000]\x7d")⟩ ∧
    loadEffect (utf16 "2025-09-16")
      (saveTasksEffect numericSample
        (saveCompletionEffect (utf16 "2025-09-16") numericSample ⟨none, none⟩)) =
      Except.ok
        { tasks := JSON.arr
            [JSON.obj [(utf16 "id", JSON.frac 3 1), (utf16 "text", JSON.str (utf16 "tea \"now\""))],
             JSON.obj [(utf16 "id", JSON.num 1700000000000), (utf16 "text", JSON.str (utf16 "water"))]]
          completedTasks := [JSON.num 1700000000000]
          isLoaded := true
          storage := saveTasksEffect numericSample
            (saveCompletionEffect (utf16 "2025-09-16") numericSample ⟨none, none⟩)
          consoleErrors := 0 } :=
  ⟨rfl, rfl,
    (loadEffect_after_save (utf16 "2025-09-16") numericSample ⟨none, none⟩ rfl
      (by decide) (by decide) (by decide)).1⟩

end Techtools
